import Mathlib

/-!
Verification of the tower_sim consensus kernel (`src/bank.rs`, `src/node.rs`).

Shallow embedding conventions:
* `Slot` and `ID` are `Nat` (the Rust `usize`/`u64` values stay far from
  overflow in every claim considered; arithmetic is on `Nat`).
* Rust `HashMap<Slot, _>` is an association list `List (Nat × _)` with
  unique keys (the `AMap` operations below); `HashSet` is a duplicate-free
  `List Nat`.  Iteration order of a `HashMap` is arbitrary in Rust; every
  iteration the code performs is order-insensitive (max-merges, counts,
  sums, maxima over distinct elements), so the list order is a sound choice.
* A Rust `panic!`/`assert!`/`unwrap` failure is a `none`/`.error` result.
  Unbounded `loop`/worklist iteration is modelled with an explicit fuel that
  is sufficient for every well-formed (tree-shaped) fork store; running out
  of fuel is also an abnormal (`.error .outOfFuel`) result.
* `tower.rs` is part of the repository but is not among the provided
  sources; the `Tower` operations are modelled from the spec (§4.1), as
  marked on each definition.
-/

namespace TowerSim

/-- `NUM_NODES` from `src/bank.rs`. -/
def NUM_NODES : Nat := 997

/-- `SUBCOMMITTEE_EPOCH` from `src/bank.rs`. -/
def SUBCOMMITTEE_EPOCH : Nat := 64

/-- `SUBCOMMITTEE_SIZE` from `src/bank.rs`. -/
def SUBCOMMITTEE_SIZE : Nat := 200

/-- `THRESHOLD` from `src/node.rs`. -/
def THRESHOLD : Nat := 6

/-- Modelled from the spec (§3): a vote is a slot plus a lockout.
`tower.rs` (the defining module) is not among the provided sources. -/
structure Vote where
  slot : Nat
  lockout : Nat
deriving DecidableEq, Repr

/-- Modelled from the spec (§3): the zero vote `{0, 0}`. -/
def Vote.zero : Vote := ⟨0, 0⟩

/-- Modelled from the spec (§3): a tower is an ordered sequence of active
votes, most recent first, plus a committed root vote. -/
structure Tower where
  votes : List Vote
  root : Vote
deriving DecidableEq, Repr

/-- Modelled from the spec (§8 S1): the default tower is empty with root
`{0,0}`. -/
def Tower.default : Tower := ⟨[], Vote.zero⟩

/-- Modelled from the spec (§4.1): `latest_vote()` is the front of `votes`,
or `None` if empty. -/
def Tower.latest_vote (t : Tower) : Option Vote := t.votes.head?

/-- Modelled from the spec (§4.1 step 3): after the new vote is pushed at
the front, doubling walks towards the back; whenever an entry's lockout
equals the lockout of the entry in front of it, it is doubled, and the
doubled value cascades.  `prev` is the (already fixed) lockout of the entry
in front. -/
def Tower.cascade : Nat → List Vote → List Vote
  | _, [] => []
  | prev, w :: rest =>
    if w.lockout = prev then
      Vote.mk w.slot (w.lockout * 2) :: Tower.cascade (w.lockout * 2) rest
    else
      w :: Tower.cascade w.lockout rest

/-- Modelled from the spec (§4.1): `Tower::apply(vote)`.
1. fail with `AlreadyVoted` if the slot is not beyond the front and the root;
2. expire every entry whose expiry slot (`slot + lockout`) is `≤ vote.slot`
   (the spec states this set-of-entries characterisation explicitly);
3. push the new vote at the front with lockout 2 and cascade the doubling;
4. if the (single possible) back entry now exceeds `2^THRESHOLD`, it is
   promoted to `root` and removed from the stack. -/
def Tower.apply (t : Tower) (vote : Vote) : Except Unit Tower :=
  let frontBlocked : Bool :=
    match t.votes.head? with
    | some f => decide (vote.slot ≤ f.slot)
    | none => false
  if frontBlocked || decide (vote.slot ≤ t.root.slot) then
    .error ()
  else
    let kept := t.votes.filter (fun w => decide (vote.slot < w.slot + w.lockout))
    let stack := Vote.mk vote.slot 2 :: Tower.cascade 2 kept
    match stack.getLast? with
    | some back =>
      if 2 ^ THRESHOLD < back.lockout then
        .ok ⟨stack.dropLast, back⟩
      else
        .ok ⟨stack, t.root⟩
    | none => .ok ⟨stack, t.root⟩

/-- Modelled from the spec (§4.5 step 6): `Tower::get_incrased_lockouts`
(the source spelling) returns the proposed increased lockouts — each entry
of the proposed tower whose lockout reached the threshold or strictly
exceeds the lockout of the same slot in the original replica (a slot absent
from the original counts as lockout 0). -/
def Tower.get_incrased_lockouts (orig : Tower) (threshold : Nat) (proposed : Tower) :
    List (Nat × Nat) :=
  (proposed.votes.filter (fun v =>
    decide (threshold ≤ v.lockout) ||
      decide (((orig.votes.find? (fun w => decide (w.slot = v.slot))).map Vote.lockout).getD 0
        < v.lockout))).map (fun v => (v.slot, v.lockout))

/-! ### Association maps with `Nat` keys (model of `HashMap<Slot, _>`) -/

namespace AMap

/-- First-match lookup. -/
def find? (m : List (Nat × α)) (k : Nat) : Option α :=
  match m with
  | [] => none
  | (k', v) :: t => if k' = k then some v else find? t k

/-- Insert-or-replace, keeping the position of an existing key. -/
def insert (m : List (Nat × α)) (k : Nat) (v : α) : List (Nat × α) :=
  match m with
  | [] => [(k, v)]
  | (k', v') :: t => if k' = k then (k, v) :: t else (k', v') :: insert t k v

/-- Remove a key. -/
def erase (m : List (Nat × α)) (k : Nat) : List (Nat × α) :=
  m.filter (fun p => decide (p.1 ≠ k))

/-- The key list. -/
def keys (m : List (Nat × α)) : List Nat := m.map Prod.fst

@[simp] theorem find?_nil (k : Nat) : find? ([] : List (Nat × α)) k = none := rfl

theorem find?_cons (p : Nat × α) (t : List (Nat × α)) (k : Nat) :
    find? (p :: t) k = if p.1 = k then some p.2 else find? t k := rfl

theorem find?_isSome_iff_mem_keys (m : List (Nat × α)) (k : Nat) :
    (find? m k).isSome = true ↔ k ∈ keys m := by
  induction m with
  | nil => simp [keys]
  | cons p t ih =>
    rcases p with ⟨k', v⟩
    by_cases h : k' = k
    · subst h
      simp [find?_cons, keys]
    · simp only [find?_cons, if_neg h, keys, List.map_cons, List.mem_cons]
      rw [ih]
      constructor
      · exact fun hm => Or.inr hm
      · rintro (hk | hm)
        · exact absurd hk.symm h
        · exact hm

theorem find?_eq_none_of_not_mem_keys {m : List (Nat × α)} {k : Nat}
    (h : k ∉ keys m) : find? m k = none := by
  by_contra hne
  have : (find? m k).isSome = true := by
    cases hfk : find? m k with
    | none => exact absurd hfk hne
    | some v => simp
  exact h ((find?_isSome_iff_mem_keys m k).mp this)

end AMap

/-! ### Subcommittee (`src/bank.rs`) -/

/-- `Subcommittee` from `src/bank.rs`; the two `HashSet<ID>` are
duplicate-free lists. -/
structure Subcommittee where
  primary : List Nat
  secondary : List Nat
  num_super_roots : Nat
  parent_num_super_roots : Nat
  super_root : Nat
  parent_super_root : Nat
deriving DecidableEq, Repr

/-- `Phase` from `src/bank.rs`. -/
inductive Phase
  | SecondaryRotationB
  | PrimaryA2B
  | SecondaryRotationA
  | PrimaryB2A
deriving DecidableEq, Repr

/-- Stands in for `std::collections::hash_map::DefaultHasher` (SipHash-1-3
with zero keys), an external-library deterministic hash function outside
this repository; modelled as a concrete 64-bit mixing function.  No claim
depends on its output values, only on its determinism. -/
def Subcommittee.hash (val : Nat) : Nat :=
  (val * 6364136223846793005 + 1442695040888963407) % 2 ^ 64

/-- `HashSet::insert` on the duplicate-free list model. -/
def setInsert (l : List Nat) (x : Nat) : List Nat :=
  if x ∈ l then l else l ++ [x]

/-- The loop body of `Subcommittee::calc_subcommittee`. -/
def Subcommittee.calcLoop : Nat → Nat → List Nat → List Nat
  | 0, _, set => set
  | n + 1, seed, set =>
    Subcommittee.calcLoop n (Subcommittee.hash seed) (setInsert set (seed % SUBCOMMITTEE_SIZE))

/-- `Subcommittee::calc_subcommittee` from `src/bank.rs`: hash the epoch,
then iterate `SUBCOMMITTEE_SIZE` times inserting `seed % SUBCOMMITTEE_SIZE`
and rehashing. -/
def Subcommittee.calc_subcommittee (epoch : Nat) : List Nat :=
  Subcommittee.calcLoop SUBCOMMITTEE_SIZE (Subcommittee.hash epoch) []

/-- `Subcommittee::default` from `src/bank.rs`. -/
def Subcommittee.default : Subcommittee :=
  { primary := Subcommittee.calc_subcommittee 0
    secondary := Subcommittee.calc_subcommittee 0
    num_super_roots := 0
    parent_num_super_roots := 0
    super_root := 0
    parent_super_root := 0 }

/-- `Subcommittee::subcommittee_epoch` from `src/bank.rs`. -/
def Subcommittee.subcommittee_epoch (s : Subcommittee) : Nat :=
  s.parent_num_super_roots / SUBCOMMITTEE_EPOCH

/-- `Subcommittee::subcommittee_phase` from `src/bank.rs`.  The source
matches on `epoch % 4` and panics on any other value; since `n % 4 < 4`
the default arm here is exactly the `3` case. -/
def Subcommittee.subcommittee_phase (s : Subcommittee) : Phase :=
  match s.subcommittee_epoch % 4 with
  | 0 => .SecondaryRotationB
  | 1 => .PrimaryA2B
  | 2 => .SecondaryRotationA
  | _ => .PrimaryB2A

/-- `Subcommittee::child` from `src/bank.rs`. -/
def Subcommittee.child (s : Subcommittee) : Subcommittee :=
  { parent_super_root := s.super_root
    super_root := s.super_root
    num_super_roots := s.num_super_roots
    parent_num_super_roots := s.num_super_roots
    primary := s.primary
    secondary := s.secondary }

/-- `Subcommittee::init_child` from `src/bank.rs`. -/
def Subcommittee.init_child (s : Subcommittee) (parent : Subcommittee) : Subcommittee :=
  if s.subcommittee_epoch ≠ parent.subcommittee_epoch then
    let epoch := s.subcommittee_epoch
    match s.subcommittee_phase with
    | .SecondaryRotationB => { s with secondary := Subcommittee.calc_subcommittee epoch }
    | .PrimaryA2B => { s with primary := s.secondary, secondary := s.primary }
    | .SecondaryRotationA => { s with secondary := Subcommittee.calc_subcommittee epoch }
    | .PrimaryB2A => { s with primary := s.secondary, secondary := s.primary }
  else
    s

/-- `Subcommittee::freeze` from `src/bank.rs`. -/
def Subcommittee.freeze (s : Subcommittee) (super_root : Nat) : Subcommittee :=
  let s' := { s with super_root := super_root }
  if s'.super_root ≠ s'.parent_super_root then
    { s' with num_super_roots := s'.num_super_roots + 1 }
  else
    s'

/-! ### Bank (`src/bank.rs`) -/

/-- `Bank` from `src/bank.rs`. -/
structure Bank where
  nodes : List Tower
  slot : Nat
  parent : Nat
  frozen : Bool
  children : List Nat
  subcom : Subcommittee
deriving DecidableEq, Repr

/-- `Block` from `src/bank.rs`. -/
structure Block where
  slot : Nat
  parent : Nat
  votes : List (Nat × List Vote)
deriving DecidableEq, Repr

/-- Abnormal outcomes: each constructor is a distinct `panic!` site (or the
fuel stand-in for a diverging worklist, see the header comment). -/
inductive Fail
  | doubleApply
  | unknownParent
  | forkViolation
  | notFrozen
  | badIndex
  | brokenInvariant
  | outOfFuel
deriving DecidableEq, Repr

/-- `Bank::zero` from `src/bank.rs`. -/
def Bank.zero : Bank :=
  { nodes := List.replicate NUM_NODES Tower.default
    slot := 0
    parent := 0
    frozen := true
    children := []
    subcom := Subcommittee.default }

/-- `Bank::child` from `src/bank.rs`: requires the parent to be frozen
(`assert!(self.frozen)` — `none` models the panic), returns the updated
parent (its `children` list grew) and the new unfrozen child, whose
subcommittee is `self.subcom.child()` transitioned by `init_child`. -/
def Bank.child (b : Bank) (slot : Nat) : Option (Bank × Bank) :=
  if b.frozen then
    let c : Bank :=
      { nodes := b.nodes
        slot := slot
        parent := b.slot
        children := []
        subcom := b.subcom.child
        frozen := false }
    let c' := { c with subcom := c.subcom.init_child b.subcom }
    some ({ b with children := b.children ++ [slot] }, c')
  else
    none

/-- The roots of all tower replicas, sorted by slot ascending
(`roots.sort_by_key(|x| x.slot)` in `src/bank.rs`). -/
def Bank.sortedRoots (b : Bank) : List Vote :=
  (b.nodes.map Tower.root).insertionSort (fun a b => a.slot ≤ b.slot)

/-- `Bank::calc_super_root` from `src/bank.rs`: element `NUM_NODES / 3` of
the sorted roots (`none` models the index panic on a too-short list). -/
def Bank.calc_super_root (b : Bank) : Option Vote :=
  b.sortedRoots[NUM_NODES / 3]?

/-- `Bank::lowest_root` from `src/bank.rs`: element 0 of the sorted roots. -/
def Bank.lowest_root (b : Bank) : Option Vote :=
  b.sortedRoots[0]?

/-- `Bank::calc_threshold_slot` from `src/bank.rs`: per replica the map
yields 1 on the first matching condition (already rooted at or past the
slot; a vote matching the maxed-lockout special case; or a vote at or past
the slot whose scaled lockout covers the queried vote), else 0. -/
def Bank.calc_threshold_slot (b : Bank) (mult : Nat) (vote : Vote) : Nat :=
  (b.nodes.map (fun n =>
    if vote.slot ≤ n.root.slot then 1
    else if n.votes.any (fun v =>
        (decide (vote.lockout = 2 ^ THRESHOLD) && decide (vote.slot ≤ v.slot)) ||
        (decide (vote.slot ≤ v.slot) &&
          decide (vote.slot + vote.lockout ≤ v.slot + mult * v.lockout))) then 1
    else 0)).sum

/-- `Bank::threshold_slot` from `src/bank.rs`. -/
def Bank.threshold_slot (b : Bank) (vote : Vote) : Bool :=
  decide (2 * NUM_NODES / 3 < b.calc_threshold_slot (2 ^ THRESHOLD) vote)

/-- One step of the vote loop in `Bank::apply`: check the vote is on the
bank's fork (`assert!` → `.error .forkViolation`), then apply it to the
replica of validator `id` (`.error .badIndex` models the index panic;
a `Tower::apply` error is swallowed, leaving the replica unchanged). -/
def Bank.applyOneVote (nodes : List Tower) (fork : List Nat) (id : Nat) (v : Vote) :
    Except Fail (List Tower) :=
  if v.slot ∈ fork then
    match nodes[id]? with
    | some t =>
      .ok (nodes.set id (match t.apply v with | .ok t' => t' | .error _ => t))
    | none => .error .badIndex
  else
    .error .forkViolation

/-- The full vote loop of `Bank::apply`, in block order. -/
def Bank.applyVotes (nodes : List Tower) (fork : List Nat) :
    List (Nat × List Vote) → Except Fail (List Tower)
  | [] => .ok nodes
  | (id, vs) :: rest => do
    let nodes' ← vs.foldlM (fun acc v => Bank.applyOneVote acc fork id v) nodes
    Bank.applyVotes nodes' fork rest

/-- `Bank::apply` from `src/bank.rs`: assert not frozen and matching
slot/parent, apply the carried votes, then freeze the subcommittee at the
recomputed super root and set `frozen`. -/
def Bank.apply (b : Bank) (block : Block) (fork : List Nat) : Except Fail Bank :=
  if b.frozen then .error .notFrozen
  else if b.slot ≠ block.slot then .error .brokenInvariant
  else if b.parent ≠ block.parent then .error .brokenInvariant
  else
    match Bank.applyVotes b.nodes fork block.votes with
    | .error e => .error e
    | .ok nodes' =>
      let b' := { b with nodes := nodes' }
      match b'.calc_super_root with
      | none => .error .badIndex
      | some sr =>
        .ok { b' with subcom := b'.subcom.freeze sr.slot, frozen := true }

/-- `Bank::latest_votes` merge step: `acc.entry(i).or_insert(slot)`, then
maximise. -/
def lvMerge (acc : List (Nat × Nat)) (i slot : Nat) : List (Nat × Nat) :=
  match AMap.find? acc i with
  | none => AMap.insert acc i slot
  | some e => if e < slot then AMap.insert acc i slot else acc

/-- `Bank::latest_votes` from `src/bank.rs`: for each replica, its latest
vote (or its root when the stack is empty), maximised into the accumulator
keyed by validator index. -/
def Bank.latest_votes (b : Bank) (acc : List (Nat × Nat)) : List (Nat × Nat) :=
  b.nodes.enum.foldl (fun acc p => lvMerge acc p.1 ((p.2.latest_vote.getD p.2.root).slot)) acc

/-! ### Banks, the fork store (`src/bank.rs`) -/

/-- `Banks` from `src/bank.rs`. -/
structure Banks where
  fork_map : List (Nat × Bank)
  fork_weights : List (Nat × Nat)
  lowest_root : Vote
deriving DecidableEq, Repr

/-- `Banks::default` from `src/bank.rs`. -/
def Banks.default : Banks :=
  { fork_map := [(0, Bank.zero)]
    fork_weights := []
    lowest_root := Vote.zero }

/-- The loop of `Banks::compute_fork`: `acc` is the fork built so far in
reverse, `last` its most recently pushed element.  Fuel bounds the
iteration count; `fork_map.length + 1` iterations suffice whenever the
parent chain is acyclic, so `none` only models a diverging walk. -/
def computeForkAux (m : List (Nat × Bank)) : Nat → Nat → List Nat → Option (List Nat)
  | 0, _, _ => none
  | fuel + 1, last, acc =>
    match AMap.find? m last with
    | none => some acc.reverse
    | some b =>
      if b.parent = last then some acc.reverse
      else computeForkAux m fuel b.parent (b.parent :: acc)

/-- `Banks::compute_fork` from `src/bank.rs`: the slot followed by its
ancestor chain, most recent first. -/
def Banks.compute_fork (s : Banks) (slot : Nat) : Option (List Nat) :=
  computeForkAux s.fork_map (s.fork_map.length + 1) slot [slot]

/-- The shared worklist of `Banks::gc` and `Banks::build_fork_weights`
(`children` is a `Vec` popped from the back; the model list is that `Vec`
reversed, so popping the head and prepending `children.reverse` is the
`pop`/`extend_from_slice` pair).  Returns the visit order; `none` models a
missing-bank `unwrap` panic or a diverging walk (fuel). -/
def walkTree (m : List (Nat × Bank)) : Nat → List Nat → Option (List Nat)
  | 0, _ => none
  | _ + 1, [] => some []
  | fuel + 1, k :: rest =>
    match AMap.find? m k with
    | none => none
    | some b => (walkTree m fuel (b.children.reverse ++ rest)).map (k :: ·)

/-- The rebuild loop of `Banks::gc`: move each visited slot out of the old
map (`remove(&v).unwrap()` — `none` models the panic when a slot was
already moved, i.e. was visited twice). -/
def gcRebuild : List Nat → List (Nat × Bank) → List (Nat × Bank) →
    Option (List (Nat × Bank))
  | [], _, acc => some acc
  | v :: vs, m, acc =>
    match AMap.find? m v with
    | none => none
    | some b => gcRebuild vs (AMap.erase m v) (acc ++ [(v, b)])

/-- `Banks::gc` from `src/bank.rs`: keep exactly the banks reachable from
`lowest_root.slot` through `children`. -/
def Banks.gc (s : Banks) : Option Banks :=
  match walkTree s.fork_map (s.fork_map.length + 1) [s.lowest_root.slot] with
  | none => none
  | some valid =>
    match gcRebuild valid s.fork_map [] with
    | none => none
    | some newBanks => some { s with fork_map := newBanks }

/-- `entry(*v).or_insert(0); *e += 1` over the latest-vote table: the
per-slot vote counts of `Banks::build_fork_weights`. -/
def countValues (entries : List (Nat × Nat)) : List (Nat × Nat) :=
  entries.foldl (fun sv p => AMap.insert sv p.2 ((AMap.find? sv p.2).getD 0 + 1)) []

/-- The weight-assignment pass of `Banks::build_fork_weights`, replayed
over the worklist visit order (the Rust loop interleaves the stack and the
weight updates, but the weights never influence the traversal, so the two
are separated here): `weights.entry(child).or_insert(parent_weight)` then
`+ slot_votes[child]`. -/
def weightsFold (m : List (Nat × Bank)) (sv : List (Nat × Nat)) :
    List Nat → List (Nat × Nat) → Option (List (Nat × Nat))
  | [], w => some w
  | k :: ks, w =>
    match AMap.find? m k with
    | none => none
    | some b =>
      let pw := (AMap.find? w b.parent).getD 0
      let cur := (AMap.find? w k).getD pw
      weightsFold m sv ks (AMap.insert w k (cur + (AMap.find? sv k).getD 0))

/-- `Banks::build_fork_weights` from `src/bank.rs`: merge every bank's
latest votes, count them per slot, then assign weights down the tree from
`lowest_root.slot`. -/
def Banks.build_fork_weights (s : Banks) : Option Banks :=
  let lv := s.fork_map.foldl (fun acc p => p.2.latest_votes acc) []
  let sv := countValues lv
  match walkTree s.fork_map (s.fork_map.length + 1) [s.lowest_root.slot] with
  | none => none
  | some order =>
    match weightsFold s.fork_map sv order [] with
    | none => none
    | some w => some { s with fork_weights := w }

/-- `Banks::apply` from `src/bank.rs`.  The two `assert!`s on a fresh slot
are `.doubleApply`, the parent `unwrap` is `.unknownParent`; the parent is
mutated in place by `Bank::child` before `compute_fork` runs; the new bank
is inserted, `lowest_root` possibly advances (triggering `gc`), and the
fork weights are rebuilt.  The `max_root` loop of the source only feeds a
`println!` and has no further effect, so it is omitted.

`applyTail` is the tail of `Banks::apply` after the new bank froze: compute
its lowest root, re-assert the fresh slot, insert, advance `lowest_root`
and garbage-collect when it grew, and rebuild the fork weights. -/
def Banks.applyTail (s : Banks) (m₁ : List (Nat × Bank)) (bank : Bank) : Except Fail Banks :=
  match bank.lowest_root with
  | none => .error .badIndex
  | some lr =>
    if (AMap.find? m₁ bank.slot).isSome then .error .doubleApply
    else
      let s₁ : Banks := { s with fork_map := AMap.insert m₁ bank.slot bank }
      if s.lowest_root.slot < lr.slot then
        match Banks.gc { s₁ with lowest_root := lr } with
        | none => .error .brokenInvariant
        | some s₂ =>
          match s₂.build_fork_weights with
          | none => .error .brokenInvariant
          | some s₃ => .ok s₃
      else
        match s₁.build_fork_weights with
        | none => .error .brokenInvariant
        | some s₃ => .ok s₃

def Banks.apply (s : Banks) (block : Block) : Except Fail Banks :=
  if (AMap.find? s.fork_map block.slot).isSome then .error .doubleApply
  else
    match AMap.find? s.fork_map block.parent with
    | none => .error .unknownParent
    | some parent =>
      match parent.child block.slot with
      | none => .error .notFrozen
      | some (parent', bank) =>
        let m₁ := AMap.insert s.fork_map block.parent parent'
        match computeForkAux m₁ (m₁.length + 1) block.parent [block.parent] with
        | none => .error .outOfFuel
        | some forkChain =>
          match bank.apply block (block.slot :: forkChain) with
          | .error e => .error e
          | .ok bank => s.applyTail m₁ bank

/-! ### Node (`src/node.rs`) -/

/-- `Node` from `src/node.rs`; `blocks` (a `HashSet<Slot>`) is a
duplicate-free list. -/
structure Node where
  id : Nat
  blocks : List Nat
  tower : Tower
  heaviest_fork : List Nat
deriving DecidableEq, Repr

/-- `Node::zero` from `src/node.rs`. -/
def Node.zero (id : Nat) : Node :=
  { id := id, blocks := [0], tower := Tower.default, heaviest_fork := [0] }

/-- `Node::gc` from `src/node.rs`: retain the slots at or past the tower
root. -/
def Node.gcBlocks (n : Node) : Node :=
  { n with blocks := n.blocks.filter (fun x => decide (n.tower.root.slot ≤ x)) }

/-- `Node::set_active_block` from `src/node.rs`: insert, then compact when
the set grew past 1024 entries. -/
def Node.set_active_block (n : Node) (slot : Nat) : Node :=
  let n' := { n with blocks := setInsert n.blocks slot }
  if 1024 < n'.blocks.length then n'.gcBlocks else n'

/-- `Node::lockout_check` from `src/node.rs`.  With a non-empty simulated
tower every remaining vote must lie on `heaviest_fork`; with an empty one
the root must (`assert!(rv, ...)` makes the failing case a panic, modelled
as `none`). -/
def Node.lockout_check (n : Node) (tower : Tower) : Option Bool :=
  if tower.votes.length > 0 then
    some (tower.votes.all (fun e => decide (e.slot ∈ n.heaviest_fork)))
  else
    if n.heaviest_fork.contains tower.root.slot then some true else none

/-- `Node::threshold_check` from `src/node.rs`: the front of the simulated
tower names the bank voted on; every proposed increased lockout must pass
`threshold_slot` there.  The `unwrap`s and the replica indexing panic are
`none`. -/
def Node.threshold_check (n : Node) (tower : Tower) (banks : List (Nat × Bank)) :
    Option Bool :=
  match tower.votes.head? with
  | none => none
  | some vote =>
    match AMap.find? banks vote.slot with
    | none => none
    | some bank =>
      match bank.nodes[n.id]? with
      | none => none
      | some replica =>
        let proposed := replica.get_incrased_lockouts (2 ^ THRESHOLD) tower
        some (proposed.all (fun p => bank.threshold_slot ⟨p.1, p.2⟩))

/-- The accumulation loop of `Node::optimistic_conf_check` over the
(filtered) weight entries: skip slots outside the visibility set, slots not
beyond the last vote, and slots on the last vote's fork; for the rest, add
the stake of every slot whose fork does not contain the last vote.  `none`
models a diverging `compute_fork` (fuel). -/
def ocTotal (blocks : List Nat) (banks : Banks) (lv : Vote) (lvf : List Nat) :
    List (Nat × Nat) → Option Nat
  | [] => some 0
  | (slot, stake) :: rest =>
    if slot ∉ blocks then ocTotal blocks banks lv lvf rest
    else if slot ≤ lv.slot then ocTotal blocks banks lv lvf rest
    else if slot ∈ lvf then ocTotal blocks banks lv lvf rest
    else
      match banks.compute_fork slot with
      | none => none
      | some fork =>
        if lv.slot ∈ fork then ocTotal blocks banks lv lvf rest
        else (ocTotal blocks banks lv lvf rest).map (stake + ·)

/-- `Node::optimistic_conf_check` from `src/node.rs`. -/
def Node.optimistic_conf_check (n : Node) (new_fork : List Nat)
    (fork_weights : List (Nat × Nat)) (banks : Banks) : Option Bool :=
  match n.tower.votes.head? with
  | none => some true
  | some last_vote =>
    if last_vote.slot ∈ new_fork then some true
    else
      match banks.compute_fork last_vote.slot with
      | none => none
      | some last_vote_fork =>
        match ocTotal n.blocks banks last_vote last_vote_fork fork_weights with
        | none => none
        | some total => some (decide (NUM_NODES / 3 < total))

/-- Rust `Iterator::max` on `(weight, slot)` pairs: the later element wins
ties (tuples compare lexicographically in Rust). -/
def lexStep (a b : Nat × Nat) : Nat × Nat :=
  if a.1 < b.1 ∨ (a.1 = b.1 ∧ a.2 ≤ b.2) then b else a

/-- `Option`-valued maximum over a pair list, as `Iterator::max`. -/
def lexMax? : List (Nat × Nat) → Option (Nat × Nat)
  | [] => none
  | x :: xs => some (xs.foldl lexStep x)

/-- The visibility-filtered weights of `Node::vote`
(`banks.fork_weights.iter().filter(...)`). -/
def Node.filteredWeights (n : Node) (banks : Banks) : List (Nat × Nat) :=
  banks.fork_weights.filter (fun p => decide (p.1 ∈ n.blocks))

/-- The `heaviest_slot` computation of `Node::vote`: the lexicographic
`(weight, slot)` maximum of the filtered weights, defaulting to 0. -/
def Node.heaviestSlot (n : Node) (banks : Banks) : Nat :=
  ((lexMax? ((n.filteredWeights banks).map (fun p => (p.2, p.1)))).map Prod.snd).getD 0

/-- The outcome of one `Node::vote` attempt: a panic (`assert!`/`unwrap`
failure), a silent abort (early `return`), or a committed tower. -/
inductive VoteOutcome
  | panic
  | abort (n : Node)
  | commit (n : Node)
deriving DecidableEq, Repr

/-- `Tower::votes()` as invoked by `Node::vote` (tower.rs is not under
`src/`): the snapshot of the vote stack in ascending slot order, oldest
vote first — the reverse of the front-first `votes` deque.  The order is
pinned by `src/node.rs` itself: it asserts
`proposed[0].slot <= proposed.last().unwrap().slot` over this snapshot of
a deque whose slots decrease front-to-back, and then replays the snapshot
into the bank replica through `Tower::apply`, which accepts only
ascending slots. -/
def Tower.votesSnapshot (t : Tower) : List Vote := t.votes.reverse

/-- `Node::vote` from `src/node.rs`, with the control-flow outcome made
explicit.  `self.heaviest_fork` is overwritten before the first abort
check; each early `return` yields `.abort` with that update already in
place; the final line replaces the tower. -/
def Node.voteResult (n : Node) (banks : Banks) : VoteOutcome :=
  let weights := n.filteredWeights banks
  let heaviest_slot := n.heaviestSlot banks
  match banks.compute_fork heaviest_slot with
  | none => .panic
  | some heaviest_fork =>
    if banks.lowest_root.slot ∉ heaviest_fork then .panic
    else
      let n₁ := { n with heaviest_fork := heaviest_fork }
      match n.tower.apply ⟨heaviest_slot, 2⟩ with
      | .error _ => .abort n₁
      | .ok tower =>
        match n₁.lockout_check tower with
        | none => .panic
        | some false => .abort n₁
        | some true =>
          match AMap.find? banks.fork_map heaviest_slot with
          | none => .panic
          | some bank =>
            match bank.nodes[n.id]? with
            | none => .panic
            | some replica =>
              let proposed := tower.votesSnapshot
              match proposed.head?, proposed.getLast? with
              | some p0, some pl =>
                if pl.slot < p0.slot then .panic
                else
                  let result := proposed.foldl (fun r v =>
                    match r.apply ⟨v.slot, 2⟩ with
                    | .ok r' => r'
                    | .error _ => r) replica
                  match n₁.threshold_check result banks.fork_map with
                  | none => .panic
                  | some false => .abort n₁
                  | some true =>
                    match n₁.optimistic_conf_check n₁.heaviest_fork weights banks with
                    | none => .panic
                    | some false => .abort n₁
                    | some true =>
                      if (tower.votes.drop 1).all
                          (fun v => n.tower.votes.any (fun x => decide (x.slot = v.slot))) then
                        .commit { n₁ with tower := tower }
                      else .panic
              | _, _ => .panic

/-- `Node::vote` as the callers see it: `none` is a panic, `some` the node
after the attempt. -/
def Node.vote (n : Node) (banks : Banks) : Option Node :=
  match n.voteResult banks with
  | .panic => none
  | .abort n' => some n'
  | .commit n' => some n'

/-! ### C1 — supermajority root -/

instance : IsTotal Vote (fun a b => a.slot ≤ b.slot) :=
  ⟨fun a b => Nat.le_total a.slot b.slot⟩

instance : IsTrans Vote (fun a b => a.slot ≤ b.slot) :=
  ⟨fun _ _ _ => Nat.le_trans⟩

/-- Claim C1: for every Bank with `NUM_NODES = 997` tower replicas, at least
`⌈2·NUM_NODES/3⌉ = 665` of them satisfy
`tower.root.slot ≥ bank.calc_super_root().slot`, where `calc_super_root`
sorts the 997 roots by slot ascending and returns the element at index
`NUM_NODES / 3 = 332`. -/
theorem c1_supermajority_root (b : Bank) (sr : Vote)
    (hlen : b.nodes.length = NUM_NODES)
    (hsr : b.calc_super_root = some sr) :
    665 ≤ b.nodes.countP (fun t => decide (sr.slot ≤ t.root.slot)) := by
  classical
  have hsorted : List.Sorted (fun a b : Vote => a.slot ≤ b.slot) b.sortedRoots :=
    List.sorted_insertionSort _ _
  have hperm : List.Perm b.sortedRoots (b.nodes.map Tower.root) :=
    List.perm_insertionSort _ _
  have hSlen : b.sortedRoots.length = NUM_NODES := by
    rw [hperm.length_eq, List.length_map, hlen]
  have h332 : NUM_NODES / 3 < b.sortedRoots.length := by
    rw [hSlen]; decide
  rw [Bank.calc_super_root] at hsr
  obtain ⟨hlt, hget⟩ := List.getElem?_eq_some.mp hsr
  have hcount : b.nodes.countP (fun t => decide (sr.slot ≤ t.root.slot))
      = b.sortedRoots.countP (fun v => decide (sr.slot ≤ v.slot)) := by
    rw [hperm.countP_eq, List.countP_map]
    rfl
  have hcons : b.sortedRoots.drop (NUM_NODES / 3)
      = sr :: b.sortedRoots.drop (NUM_NODES / 3 + 1) := by
    rw [List.drop_eq_getElem_cons h332, hget]
  have hallDrop : ∀ a ∈ b.sortedRoots.drop (NUM_NODES / 3),
      (fun v : Vote => decide (sr.slot ≤ v.slot)) a = true := by
    have hs' : List.Sorted (fun a b : Vote => a.slot ≤ b.slot)
        (b.sortedRoots.drop (NUM_NODES / 3)) :=
      List.Pairwise.sublist (List.drop_sublist _ _) hsorted
    rw [hcons] at hs'
    intro a ha
    rw [hcons] at ha
    rcases List.mem_cons.mp ha with rfl | hmem
    · simp
    · exact decide_eq_true (List.rel_of_sorted_cons hs' a hmem)
  have hdropLen : (b.sortedRoots.drop (NUM_NODES / 3)).length = 665 := by
    rw [List.length_drop, hSlen]
    decide
  have hdropCount : (b.sortedRoots.drop (NUM_NODES / 3)).countP
      (fun v : Vote => decide (sr.slot ≤ v.slot)) = 665 := by
    rw [List.countP_eq_length.mpr hallDrop, hdropLen]
  have hsplit : b.sortedRoots.countP (fun v : Vote => decide (sr.slot ≤ v.slot))
      = (b.sortedRoots.take (NUM_NODES / 3)).countP (fun v : Vote => decide (sr.slot ≤ v.slot))
        + (b.sortedRoots.drop (NUM_NODES / 3)).countP
            (fun v : Vote => decide (sr.slot ≤ v.slot)) := by
    conv_lhs => rw [← List.take_append_drop (NUM_NODES / 3) b.sortedRoots]
    rw [List.countP_append]
  rw [hcount, hsplit, hdropCount]
  exact Nat.le_add_left _ _

set_option maxRecDepth 100000 in
/-- Witness for C1 at the genesis bank: its 997 default towers and its
computed super root satisfy the theorem's hypotheses. -/
theorem c1_supermajority_root_witness :
    Bank.zero.nodes.length = NUM_NODES ∧
      665 ≤ Bank.zero.nodes.countP (fun t => decide (Vote.zero.slot ≤ t.root.slot)) :=
  ⟨List.length_replicate _ _,
    c1_supermajority_root Bank.zero Vote.zero (List.length_replicate _ _) (by rfl)⟩

/-! ### C3 — threshold_slot characterisation -/

/-- The counted condition of `calc_threshold_slot`, as a proposition. -/
def thresholdCond (mult : Nat) (vote : Vote) (n : Tower) : Prop :=
  vote.slot ≤ n.root.slot ∨
    ∃ v ∈ n.votes, (vote.lockout = 2 ^ THRESHOLD ∧ vote.slot ≤ v.slot) ∨
      (vote.slot ≤ v.slot ∧ vote.slot + vote.lockout ≤ v.slot + mult * v.lockout)

instance (mult : Nat) (vote : Vote) (n : Tower) : Decidable (thresholdCond mult vote n) := by
  unfold thresholdCond
  infer_instance

theorem calc_threshold_slot_eq_countP (b : Bank) (mult : Nat) (vote : Vote) :
    b.calc_threshold_slot mult vote
      = b.nodes.countP (fun n => decide (thresholdCond mult vote n)) := by
  rw [Bank.calc_threshold_slot]
  induction b.nodes with
  | nil => rfl
  | cons n rest ih =>
    rw [List.map_cons, List.sum_cons, List.countP_cons, ih, Nat.add_comm]
    congr 1
    by_cases hr : vote.slot ≤ n.root.slot
    · simp [hr, thresholdCond]
    · by_cases ha : ∃ v ∈ n.votes,
          (vote.lockout = 2 ^ THRESHOLD ∧ vote.slot ≤ v.slot) ∨
            (vote.slot ≤ v.slot ∧ vote.slot + vote.lockout ≤ v.slot + mult * v.lockout)
      · have hany : n.votes.any (fun v =>
            (decide (vote.lockout = 2 ^ THRESHOLD) && decide (vote.slot ≤ v.slot)) ||
            (decide (vote.slot ≤ v.slot) &&
              decide (vote.slot + vote.lockout ≤ v.slot + mult * v.lockout))) = true := by
          rw [List.any_eq_true]
          obtain ⟨v, hv, hcase⟩ := ha
          exact ⟨v, hv, by
            rcases hcase with ⟨h1, h2⟩ | ⟨h1, h2⟩ <;> simp [h1, h2]⟩
        simp [hr, hany, thresholdCond, ha]
      · have hany : n.votes.any (fun v =>
            (decide (vote.lockout = 2 ^ THRESHOLD) && decide (vote.slot ≤ v.slot)) ||
            (decide (vote.slot ≤ v.slot) &&
              decide (vote.slot + vote.lockout ≤ v.slot + mult * v.lockout))) = false := by
          rw [Bool.eq_false_iff]
          intro hcontra
          rw [List.any_eq_true] at hcontra
          obtain ⟨v, hv, hcase⟩ := hcontra
          apply ha
          refine ⟨v, hv, ?_⟩
          rcases Bool.or_eq_true _ _ |>.mp hcase with h | h
          · rcases Bool.and_eq_true _ _ |>.mp h with ⟨h1, h2⟩
            exact Or.inl ⟨of_decide_eq_true h1, of_decide_eq_true h2⟩
          · rcases Bool.and_eq_true _ _ |>.mp h with ⟨h1, h2⟩
            exact Or.inr ⟨of_decide_eq_true h1, of_decide_eq_true h2⟩
        simp [hr, hany, thresholdCond, ha]

/-- Claim C3: `threshold_slot(vote)` is true iff the number of validators
whose replica is already rooted at or past `vote.slot`, or holds an active
vote matching the maxed-lockout special case or the scaled-lockout-coverage
case (with `mult = 2^THRESHOLD`), strictly exceeds `2·NUM_NODES/3` in
integer arithmetic — each validator counted at most once. -/
theorem c3_threshold_slot_iff (b : Bank) (vote : Vote) :
    b.threshold_slot vote = true ↔
      2 * NUM_NODES / 3
        < b.nodes.countP (fun n => decide (thresholdCond (2 ^ THRESHOLD) vote n)) := by
  rw [Bank.threshold_slot, calc_threshold_slot_eq_countP, decide_eq_true_iff]


/-! ### C8 — subcommittee inheritance and phase transition -/

/-- Effect of `Subcommittee.child` followed by `init_child`, as performed by
`Bank::child`: the parent's `num_super_roots` is latched, and the phase
transition fires exactly when the epoch changed. -/
theorem subcom_child_init (s : Subcommittee) :
    let c := (s.child).init_child s
    c.parent_num_super_roots = s.num_super_roots ∧
    (c.subcommittee_epoch = s.subcommittee_epoch →
      c.primary = s.primary ∧ c.secondary = s.secondary) ∧
    (c.subcommittee_epoch ≠ s.subcommittee_epoch →
      ((c.subcommittee_epoch % 4 = 0 ∨ c.subcommittee_epoch % 4 = 2) →
        c.primary = s.primary ∧
          c.secondary = Subcommittee.calc_subcommittee c.subcommittee_epoch) ∧
      ((c.subcommittee_epoch % 4 = 1 ∨ c.subcommittee_epoch % 4 = 3) →
        c.primary = s.secondary ∧ c.secondary = s.primary)) := by
  intro c
  have hpn : (s.child).parent_num_super_roots = s.num_super_roots := rfl
  have hEc : (s.child).subcommittee_epoch = s.num_super_roots / SUBCOMMITTEE_EPOCH := by
    simp only [Subcommittee.subcommittee_epoch]
    rw [hpn]
  by_cases heq : (s.child).subcommittee_epoch ≠ s.subcommittee_epoch
  case neg =>
    rw [not_not] at heq
    have hc : c = s.child := by
      show (s.child).init_child s = s.child
      unfold Subcommittee.init_child
      rw [if_neg (not_not_intro heq)]
    rw [hc]
    exact ⟨rfl, fun _ => ⟨rfl, rfl⟩, fun hne => absurd heq hne⟩
  case pos =>
    have h4 : (s.child).subcommittee_epoch % 4 = 0 ∨
        (s.child).subcommittee_epoch % 4 = 1 ∨
        (s.child).subcommittee_epoch % 4 = 2 ∨
        (s.child).subcommittee_epoch % 4 = 3 := by
      rw [hEc]
      omega
    rcases h4 with h4 | h4 | h4 | h4
    all_goals rw [hEc] at h4
    · have hph : (s.child).subcommittee_phase = Phase.SecondaryRotationB := by
        have hm : (s.child).subcommittee_phase =
            (match ((s.child).subcommittee_epoch % 4 : Nat) with
              | 0 => Phase.SecondaryRotationB
              | 1 => Phase.PrimaryA2B
              | 2 => Phase.SecondaryRotationA
              | _ => Phase.PrimaryB2A) := rfl
        rw [hm, hEc, h4]
      have hc : c = { s.child with secondary := Subcommittee.calc_subcommittee ((s.child).subcommittee_epoch) } := by
        show (s.child).init_child s = _
        unfold Subcommittee.init_child
        rw [if_pos heq, hph]
      have hpri : c.primary = s.primary := by rw [hc]; try rfl
      have hsec : c.secondary = Subcommittee.calc_subcommittee ((s.child).subcommittee_epoch) := by rw [hc]; try rfl
      have hepo : c.subcommittee_epoch = (s.child).subcommittee_epoch := by
        simp only [Subcommittee.subcommittee_epoch]
        rw [hc]
        try rfl
      have hpns : c.parent_num_super_roots = s.num_super_roots := by rw [hc]; try rfl
      refine ⟨hpns, ?_, ?_⟩
      · intro habs
        rw [hepo] at habs
        exact absurd habs heq
      · intro _
        constructor
        · intro hcase
          exact ⟨hpri, by rw [hsec, hepo]⟩
        · intro hcase
          rw [hepo, hEc] at hcase
          omega
    · have hph : (s.child).subcommittee_phase = Phase.PrimaryA2B := by
        have hm : (s.child).subcommittee_phase =
            (match ((s.child).subcommittee_epoch % 4 : Nat) with
              | 0 => Phase.SecondaryRotationB
              | 1 => Phase.PrimaryA2B
              | 2 => Phase.SecondaryRotationA
              | _ => Phase.PrimaryB2A) := rfl
        rw [hm, hEc, h4]
      have hc : c = { s.child with primary := (s.child).secondary, secondary := (s.child).primary } := by
        show (s.child).init_child s = _
        unfold Subcommittee.init_child
        rw [if_pos heq, hph]
      have hpri : c.primary = s.secondary := by rw [hc]; try rfl
      have hsec : c.secondary = s.primary := by rw [hc]; try rfl
      have hepo : c.subcommittee_epoch = (s.child).subcommittee_epoch := by
        simp only [Subcommittee.subcommittee_epoch]
        rw [hc]
        try rfl
      have hpns : c.parent_num_super_roots = s.num_super_roots := by rw [hc]; try rfl
      refine ⟨hpns, ?_, ?_⟩
      · intro habs
        rw [hepo] at habs
        exact absurd habs heq
      · intro _
        constructor
        · intro hcase
          rw [hepo, hEc] at hcase
          omega
        · intro hcase
          exact ⟨hpri, hsec⟩
    · have hph : (s.child).subcommittee_phase = Phase.SecondaryRotationA := by
        have hm : (s.child).subcommittee_phase =
            (match ((s.child).subcommittee_epoch % 4 : Nat) with
              | 0 => Phase.SecondaryRotationB
              | 1 => Phase.PrimaryA2B
              | 2 => Phase.SecondaryRotationA
              | _ => Phase.PrimaryB2A) := rfl
        rw [hm, hEc, h4]
      have hc : c = { s.child with secondary := Subcommittee.calc_subcommittee ((s.child).subcommittee_epoch) } := by
        show (s.child).init_child s = _
        unfold Subcommittee.init_child
        rw [if_pos heq, hph]
      have hpri : c.primary = s.primary := by rw [hc]; try rfl
      have hsec : c.secondary = Subcommittee.calc_subcommittee ((s.child).subcommittee_epoch) := by rw [hc]; try rfl
      have hepo : c.subcommittee_epoch = (s.child).subcommittee_epoch := by
        simp only [Subcommittee.subcommittee_epoch]
        rw [hc]
        try rfl
      have hpns : c.parent_num_super_roots = s.num_super_roots := by rw [hc]; try rfl
      refine ⟨hpns, ?_, ?_⟩
      · intro habs
        rw [hepo] at habs
        exact absurd habs heq
      · intro _
        constructor
        · intro hcase
          exact ⟨hpri, by rw [hsec, hepo]⟩
        · intro hcase
          rw [hepo, hEc] at hcase
          omega
    · have hph : (s.child).subcommittee_phase = Phase.PrimaryB2A := by
        have hm : (s.child).subcommittee_phase =
            (match ((s.child).subcommittee_epoch % 4 : Nat) with
              | 0 => Phase.SecondaryRotationB
              | 1 => Phase.PrimaryA2B
              | 2 => Phase.SecondaryRotationA
              | _ => Phase.PrimaryB2A) := rfl
        rw [hm, hEc, h4]
      have hc : c = { s.child with primary := (s.child).secondary, secondary := (s.child).primary } := by
        show (s.child).init_child s = _
        unfold Subcommittee.init_child
        rw [if_pos heq, hph]
      have hpri : c.primary = s.secondary := by rw [hc]; try rfl
      have hsec : c.secondary = s.primary := by rw [hc]; try rfl
      have hepo : c.subcommittee_epoch = (s.child).subcommittee_epoch := by
        simp only [Subcommittee.subcommittee_epoch]
        rw [hc]
        try rfl
      have hpns : c.parent_num_super_roots = s.num_super_roots := by rw [hc]; try rfl
      refine ⟨hpns, ?_, ?_⟩
      · intro habs
        rw [hepo] at habs
        exact absurd habs heq
      · intro _
        constructor
        · intro hcase
          rw [hepo, hEc] at hcase
          omega
        · intro hcase
          exact ⟨hpri, hsec⟩

/-- Claim C8: every child bank's subcommittee latches the parent's
`num_super_roots` into `parent_num_super_roots`; `init_child` transitions
iff the child's epoch (`parent_num_super_roots / SUBCOMMITTEE_EPOCH`)
differs from the parent's: phases 0/2 recompute the secondary from the
epoch seed keeping the primary, phases 1/3 swap primary and secondary; an
unchanged epoch leaves both sets equal to the parent's. -/
theorem c8_child_subcommittee (b : Bank) (slot : Nat) (p c : Bank)
    (h : b.child slot = some (p, c)) :
    c.subcom.parent_num_super_roots = b.subcom.num_super_roots ∧
    (c.subcom.subcommittee_epoch = b.subcom.subcommittee_epoch →
      c.subcom.primary = b.subcom.primary ∧ c.subcom.secondary = b.subcom.secondary) ∧
    (c.subcom.subcommittee_epoch ≠ b.subcom.subcommittee_epoch →
      ((c.subcom.subcommittee_epoch % 4 = 0 ∨ c.subcom.subcommittee_epoch % 4 = 2) →
        c.subcom.primary = b.subcom.primary ∧
          c.subcom.secondary = Subcommittee.calc_subcommittee c.subcom.subcommittee_epoch) ∧
      ((c.subcom.subcommittee_epoch % 4 = 1 ∨ c.subcom.subcommittee_epoch % 4 = 3) →
        c.subcom.primary = b.subcom.secondary ∧ c.subcom.secondary = b.subcom.primary)) := by
  have hsub : c.subcom = (b.subcom.child).init_child b.subcom := by
    by_cases hf : b.frozen
    · rw [Bank.child, if_pos hf] at h
      have h' := Option.some.inj h
      exact (congrArg (fun x : Bank × Bank => (Prod.snd x).subcom) h').symm
    · rw [Bank.child, if_neg hf] at h
      exact Option.noConfusion h
  rw [hsub]
  obtain ⟨h1, h3, h4⟩ := subcom_child_init b.subcom
  exact ⟨h1, h3, h4⟩

/-- The pair produced by `Bank.zero.child 1`, for the C8 witness. -/
def c8pair : Bank × Bank := (Bank.zero.child 1).getD (Bank.zero, Bank.zero)

set_option maxRecDepth 400000 in
/-- Witness for C8: at the genesis bank the epoch is unchanged, so the
child inherits both subcommittee sets. -/
theorem c8_child_subcommittee_witness :
    Bank.zero.child 1 = some (c8pair.1, c8pair.2) ∧
      c8pair.2.subcom.primary = Bank.zero.subcom.primary ∧
      c8pair.2.subcom.secondary = Bank.zero.subcom.secondary :=
  ⟨rfl, (c8_child_subcommittee Bank.zero 1 c8pair.1 c8pair.2 rfl).2.1 rfl⟩

/-! ### C9 — set_active_block bound and compaction -/

theorem mem_setInsert_self (l : List Nat) (x : Nat) : x ∈ setInsert l x := by
  rw [setInsert]
  by_cases h : x ∈ l
  · rwa [if_pos h]
  · rw [if_neg h]
    exact List.mem_append_right l (List.mem_singleton_self x)

/-- Claim C9 (amended): after `set_active_block(slot)`, the inserted slot
is a member unless the grown set exceeded 1024 entries and the slot is
older than `tower.root.slot`; whenever the set grows past 1024 every slot
older than the root is dropped (possibly including the inserted one), but
the set may still hold more than 1024 entries when more than 1024 slots
survive the compaction. -/
theorem c9_set_active_block (n : Node) (slot : Nat) :
    (1024 < (setInsert n.blocks slot).length →
      ∀ s ∈ (n.set_active_block slot).blocks, n.tower.root.slot ≤ s) ∧
    ((setInsert n.blocks slot).length ≤ 1024 ∨ n.tower.root.slot ≤ slot →
      slot ∈ (n.set_active_block slot).blocks) := by
  by_cases hlen : 1024 < (setInsert n.blocks slot).length
  · have hn' : (n.set_active_block slot).blocks
        = (setInsert n.blocks slot).filter (fun x => decide (n.tower.root.slot ≤ x)) := by
      rw [Node.set_active_block]
      rw [if_pos hlen]
      rfl
    constructor
    · intro _ s hs
      rw [hn'] at hs
      exact of_decide_eq_true (List.mem_filter.mp hs).2
    · intro hcase
      rcases hcase with hle | hroot
      · omega
      · rw [hn']
        exact List.mem_filter.mpr ⟨mem_setInsert_self n.blocks slot, decide_eq_true hroot⟩
  · have hn' : (n.set_active_block slot).blocks = setInsert n.blocks slot := by
      rw [Node.set_active_block]
      rw [if_neg hlen]
    exact ⟨fun habs => absurd habs hlen, fun _ => by
      rw [hn']
      exact mem_setInsert_self n.blocks slot⟩

/-- A node holding blocks `0..1023` with root slot 0 — compaction drops
nothing, so inserting a 1025th slot leaves 1025 entries. -/
def c9nodeA : Node :=
  { id := 0, blocks := List.range 1024, tower := Tower.default, heaviest_fork := [0] }

/-- A node holding blocks `10..1033` with root slot 10 — inserting slot 5
triggers compaction, which drops slot 5 itself. -/
def c9nodeB : Node :=
  { id := 0, blocks := (List.range 1024).map (· + 10),
    tower := { votes := [], root := ⟨10, 0⟩ }, heaviest_fork := [0] }

set_option maxRecDepth 1000000 in
/-- Counterexample to C9 as stated: after `set_active_block` the blocks
set can hold 1025 > 1024 entries, and the inserted slot can be absent. -/
theorem c9_counterexample :
    ¬ ((c9nodeA.set_active_block 1024).blocks.length ≤ 1024) ∧
      5 ∉ (c9nodeB.set_active_block 5).blocks := by
  constructor
  · decide
  · decide

set_option maxRecDepth 1000000 in
/-- Witness for C9 (amended) at `c9nodeA` and slot 1024: the insertion
grows the set past 1024, the slot is at or past the root so it stays, and
every surviving slot is at or past the root. -/
theorem c9_set_active_block_witness :
    1024 ∈ (c9nodeA.set_active_block 1024).blocks ∧
      ∀ s ∈ (c9nodeA.set_active_block 1024).blocks, c9nodeA.tower.root.slot ≤ s :=
  ⟨(c9_set_active_block c9nodeA 1024).2 (Or.inr (by decide)),
    (c9_set_active_block c9nodeA 1024).1 (by decide)⟩

/-! ### C5 — aborted vote attempts and node state -/

/-- Claim C5 (amended): an aborted vote attempt (AlreadyVoted, lockout
check, threshold check or optimistic-confirmation check) leaves the node's
`tower`, `blocks` and `id` unchanged; `heaviest_fork`, however, was already
overwritten before the abort checks and may differ. -/
theorem c5_abort_keeps_tower (n : Node) (banks : Banks) (n' : Node)
    (h : n.voteResult banks = .abort n') :
    n'.tower = n.tower ∧ n'.blocks = n.blocks ∧ n'.id = n.id := by
  simp only [Node.voteResult] at h
  repeat' split at h
  all_goals
    first
    | exact VoteOutcome.noConfusion h
    | (injection h with h'
       subst h'
       exact ⟨rfl, rfl, rfl⟩)

/-- A node whose stored `heaviest_fork` differs from the recomputed one;
its vote attempt on the default fork store aborts with AlreadyVoted. -/
def c5node : Node :=
  { id := 0, blocks := [0], tower := Tower.default, heaviest_fork := [1] }

/-- Counterexample to C5 as stated: this vote attempt aborts, yet the
node's `heaviest_fork` field changed from `[1]` to `[0]`. -/
theorem c5_counterexample :
    Node.voteResult c5node Banks.default
        = .abort { c5node with heaviest_fork := [0] } ∧
      ({ c5node with heaviest_fork := [0] } : Node) ≠ c5node := by
  exact ⟨rfl, by decide⟩

/-- Witness for C5 at the same abort: the tower, blocks and id survive. -/
theorem c5_abort_keeps_tower_witness :
    ({ c5node with heaviest_fork := [0] } : Node).tower = c5node.tower ∧
      ({ c5node with heaviest_fork := [0] } : Node).blocks = c5node.blocks ∧
      ({ c5node with heaviest_fork := [0] } : Node).id = c5node.id :=
  c5_abort_keeps_tower c5node Banks.default _ rfl

/-! ### C10 — panic on an empty visible weight table after GC -/

/-- Claim C10: when no slot visible to the node has a fork weight, the
lowest root has advanced past 0 and slot 0 was garbage-collected out of
`fork_map`, `Node::vote` panics: `heaviest_slot` defaults to 0,
`compute_fork(0)` returns `[0]`, which misses `lowest_root.slot`, and the
assertion fails rather than aborting silently. -/
theorem c10_vote_panics (n : Node) (banks : Banks)
    (hw : ∀ s ∈ n.blocks, AMap.find? banks.fork_weights s = none)
    (hroot : 0 < banks.lowest_root.slot)
    (hzero : AMap.find? banks.fork_map 0 = none) :
    n.voteResult banks = .panic := by
  have hfil : n.filteredWeights banks = [] := by
    rw [Node.filteredWeights, List.filter_eq_nil_iff]
    intro p hp
    simp only [decide_eq_true_eq]
    intro hmem
    have hnone := hw p.1 hmem
    have hsome : (AMap.find? banks.fork_weights p.1).isSome = true :=
      (AMap.find?_isSome_iff_mem_keys _ _).mpr (List.mem_map_of_mem Prod.fst hp)
    rw [hnone] at hsome
    exact Bool.noConfusion hsome
  have hhs : n.heaviestSlot banks = 0 := by
    rw [Node.heaviestSlot, hfil]
    rfl
  have hcf : banks.compute_fork 0 = some [0] := by
    rw [Banks.compute_fork, computeForkAux, hzero]
    rfl
  have hnotmem : banks.lowest_root.slot ∉ ([0] : List Nat) := by
    intro hm
    rw [List.mem_singleton] at hm
    omega
  simp only [Node.voteResult, hhs, hcf, if_pos hnotmem]

/-- The node for the C10 witness: it sees only slot 5. -/
def c10node : Node :=
  { id := 0, blocks := [5], tower := Tower.default, heaviest_fork := [0] }

/-- An empty subcommittee for small hand-built banks in witnesses. -/
def emptySubcom : Subcommittee :=
  { primary := []
    secondary := []
    num_super_roots := 0
    parent_num_super_roots := 0
    super_root := 0
    parent_super_root := 0 }

/-- The single bank of the C10 witness fork store. -/
def c10bank : Bank :=
  { nodes := []
    slot := 7
    parent := 3
    frozen := true
    children := []
    subcom := emptySubcom }

/-- A fork store as after a GC that advanced the root: slot 0 is gone,
`lowest_root.slot = 3 > 0`, and no weight entry is visible to `c10node`. -/
def c10banks : Banks :=
  { fork_map := [(7, c10bank)]
    fork_weights := [(7, 3)]
    lowest_root := ⟨3, 0⟩ }

/-- Witness for C10: the hypotheses hold at `c10node`/`c10banks` and the
vote attempt indeed panics. -/
theorem c10_vote_panics_witness :
    (∀ s ∈ c10node.blocks, AMap.find? c10banks.fork_weights s = none) ∧
      0 < c10banks.lowest_root.slot ∧
      AMap.find? c10banks.fork_map 0 = none ∧
      Node.voteResult c10node c10banks = .panic :=
  ⟨by decide, by decide, by decide,
    c10_vote_panics c10node c10banks (by decide) (by decide) (by decide)⟩

/-! ### C7 — heaviest-slot selection -/

/-- The lexicographic order on `(weight, slot)` pairs used by the Rust
tuple `Ord`. -/
def lexLE (a b : Nat × Nat) : Prop :=
  a.1 < b.1 ∨ (a.1 = b.1 ∧ a.2 ≤ b.2)

theorem lexLE_refl (a : Nat × Nat) : lexLE a a := Or.inr ⟨rfl, Nat.le_refl _⟩

theorem lexLE_trans {a b c : Nat × Nat} (h1 : lexLE a b) (h2 : lexLE b c) : lexLE a c := by
  rw [lexLE] at *
  omega

theorem lexStep_or (a b : Nat × Nat) : lexStep a b = a ∨ lexStep a b = b := by
  rw [lexStep]
  split
  · exact Or.inr rfl
  · exact Or.inl rfl

theorem lexLE_left_lexStep (a b : Nat × Nat) : lexLE a (lexStep a b) := by
  rw [lexStep]
  split
  · next hcond => exact hcond
  · exact lexLE_refl a

theorem lexLE_right_lexStep (a b : Nat × Nat) : lexLE b (lexStep a b) := by
  rw [lexStep]
  split
  · exact lexLE_refl b
  · next hcond =>
    rw [lexLE]
    rw [show (a.1 < b.1 ∨ (a.1 = b.1 ∧ a.2 ≤ b.2)) = lexLE a b from rfl, lexLE] at hcond
    omega

theorem foldl_lexStep_spec (xs : List (Nat × Nat)) : ∀ x : Nat × Nat,
    (xs.foldl lexStep x = x ∨ xs.foldl lexStep x ∈ xs) ∧
      lexLE x (xs.foldl lexStep x) ∧ ∀ y ∈ xs, lexLE y (xs.foldl lexStep x) := by
  induction xs with
  | nil =>
    intro x
    exact ⟨Or.inl rfl, lexLE_refl x, by intro y hy; cases hy⟩
  | cons b t ih =>
    intro x
    obtain ⟨hmem, hle, hall⟩ := ih (lexStep x b)
    rw [List.foldl_cons]
    refine ⟨?_, lexLE_trans (lexLE_left_lexStep x b) hle, ?_⟩
    · rcases hmem with h | h
      · rcases lexStep_or x b with h2 | h2
        · exact Or.inl (h.trans h2)
        · exact Or.inr (by rw [h, h2]; exact List.mem_cons_self b t)
      · exact Or.inr (List.mem_cons_of_mem b h)
    · intro y hy
      rcases List.mem_cons.mp hy with rfl | hy'
      · exact lexLE_trans (lexLE_right_lexStep x y) hle
      · exact hall y hy'

/-- Claim C7: `heaviest_slot` is the slot maximising the `(weight, slot)`
pair lexicographically over the slots present in both the node's `blocks`
set and `fork_weights` (greater weight wins, ties broken by greater slot),
and 0 when no such slot exists. -/
theorem c7_heaviest_slot (n : Node) (banks : Banks) :
    (n.filteredWeights banks = [] → n.heaviestSlot banks = 0) ∧
    (n.filteredWeights banks ≠ [] →
      ∃ w, (n.heaviestSlot banks, w) ∈ n.filteredWeights banks ∧
        ∀ p ∈ n.filteredWeights banks,
          p.2 < w ∨ (p.2 = w ∧ p.1 ≤ n.heaviestSlot banks)) := by
  constructor
  · intro h
    rw [Node.heaviestSlot, h]
    rfl
  · intro hne
    cases hfil : n.filteredWeights banks with
    | nil => exact absurd hfil hne
    | cons q qs =>
      have hhs : n.heaviestSlot banks
          = ((qs.map (fun p => (p.2, p.1))).foldl lexStep (q.2, q.1)).2 := by
        rw [Node.heaviestSlot, hfil]
        rfl
      obtain ⟨hmem, _, hall⟩ :=
        foldl_lexStep_spec (qs.map (fun p => (p.2, p.1))) (q.2, q.1)
      refine ⟨((qs.map (fun p => (p.2, p.1))).foldl lexStep (q.2, q.1)).1, ?_, ?_⟩
      · rcases hmem with h | h
        · rw [hhs, h]
          exact List.mem_cons_self q qs
        · obtain ⟨p, hp, hfp⟩ := List.mem_map.mp h
          rw [hhs, ← hfp]
          exact List.mem_cons_of_mem q hp
      · intro p hp
        rcases List.mem_cons.mp hp with rfl | hp'
        · have := lexLE_left_lexStep (p.2, p.1)
            ((qs.map (fun r => (r.2, r.1))).foldl lexStep (p.2, p.1))
          have h2 := (foldl_lexStep_spec (qs.map (fun r => (r.2, r.1))) (p.2, p.1)).2.1
          rw [lexLE] at h2
          rw [hhs]
          exact h2
        · have h2 := hall (p.2, p.1) (List.mem_map_of_mem _ hp')
          rw [lexLE] at h2
          rw [hhs]
          exact h2

/-- A node and fork store for the C7 witness: two visible weighted slots,
equal weights, the greater slot wins. -/
def c7node : Node :=
  { id := 0, blocks := [1, 2], tower := Tower.default, heaviest_fork := [0] }

/-- Fork store for the C7 witness. -/
def c7banks : Banks :=
  { fork_map := [], fork_weights := [(1, 5), (2, 5), (9, 9)], lowest_root := Vote.zero }

/-- Witness for C7: slot 9 is invisible, slots 1 and 2 tie at weight 5,
and the tie breaks to the greater slot 2. -/
theorem c7_heaviest_slot_witness :
    c7node.filteredWeights c7banks ≠ [] ∧
      ∃ w, (c7node.heaviestSlot c7banks, w) ∈ c7node.filteredWeights c7banks ∧
        ∀ p ∈ c7node.filteredWeights c7banks,
          p.2 < w ∨ (p.2 = w ∧ p.1 ≤ c7node.heaviestSlot c7banks) :=
  ⟨by decide, (c7_heaviest_slot c7node c7banks).2 (by decide)⟩

/-! ### C4 — switching proof -/

/-- The dissenting stake of the claim: summed weights of the slots visible
to the node, strictly beyond the last vote, not on the last vote's fork,
and whose own fork does not contain the last vote. -/
def switchStake (n : Node) (banks : Banks) (lv : Vote) : Nat :=
  ((banks.fork_weights.filter (fun p =>
      decide (p.1 ∈ n.blocks) && decide (lv.slot < p.1)
        && decide (p.1 ∉ (banks.compute_fork lv.slot).getD [])
        && decide (lv.slot ∉ (banks.compute_fork p.1).getD []))).map Prod.snd).sum

theorem ocTotal_eq_sum (blocks : List Nat) (banks : Banks) (lv : Vote) (lvf : List Nat)
    (hlvf : banks.compute_fork lv.slot = some lvf) :
    ∀ (l : List (Nat × Nat)) (t : Nat),
      ocTotal blocks banks lv lvf (l.filter (fun p => decide (p.1 ∈ blocks))) = some t →
      t = ((l.filter (fun p =>
          decide (p.1 ∈ blocks) && decide (lv.slot < p.1)
            && decide (p.1 ∉ (banks.compute_fork lv.slot).getD [])
            && decide (lv.slot ∉ (banks.compute_fork p.1).getD []))).map Prod.snd).sum := by
  intro l
  induction l with
  | nil =>
    intro t ht
    rw [List.filter_nil, ocTotal] at ht
    rw [List.filter_nil]
    exact (Option.some.inj ht).symm
  | cons p rest ih =>
    intro t ht
    rw [List.filter_cons] at ht ⊢
    by_cases hb : p.1 ∈ blocks
    · rw [if_pos (decide_eq_true hb)] at ht
      rcases p with ⟨slot, stake⟩
      rw [ocTotal] at ht
      rw [if_neg (not_not_intro hb)] at ht
      by_cases hle : slot ≤ lv.slot
      · rw [if_pos hle] at ht
        rw [if_neg (by
          simp only [Bool.and_eq_true, decide_eq_true_eq]
          intro hcontra
          have := hcontra.1.1.2
          omega)]
        exact ih t ht
      · rw [if_neg hle] at ht
        by_cases hin : slot ∈ lvf
        · rw [if_pos hin] at ht
          rw [if_neg (by
            simp only [hlvf, Option.getD_some, Bool.and_eq_true, decide_eq_true_eq]
            intro hcontra
            exact absurd hin hcontra.1.2)]
          exact ih t ht
        · rw [if_neg hin] at ht
          cases hcf : banks.compute_fork slot with
          | none =>
            simp only [hcf] at ht
            exact Option.noConfusion ht
          | some fork =>
            simp only [hcf] at ht
            by_cases hlvmem : lv.slot ∈ fork
            · rw [if_pos hlvmem] at ht
              rw [if_neg (by
                simp only [hcf, Option.getD_some, Bool.and_eq_true, decide_eq_true_eq]
                intro hcontra
                exact absurd hlvmem hcontra.2)]
              exact ih t ht
            · rw [if_neg hlvmem] at ht
              rw [if_pos (by
                simp only [hlvf, hcf, Option.getD_some, Bool.and_eq_true,
                  decide_eq_true_eq]
                exact ⟨⟨⟨hb, by omega⟩, hin⟩, hlvmem⟩)]
              cases hrest : ocTotal blocks banks lv lvf
                  (rest.filter (fun p => decide (p.1 ∈ blocks))) with
              | none =>
                rw [hrest] at ht
                exact Option.noConfusion ht
              | some t' =>
                rw [hrest] at ht
                have hsum := Option.some.inj ht
                rw [List.map_cons, List.sum_cons, ← ih t' hrest, ← hsum]
    · rw [if_neg (by simpa using hb)] at ht
      rw [if_neg (by simp [hb])]
      exact ih t ht

/-- From a committed vote, extract the heaviest fork and the successful
optimistic-confirmation check. -/
theorem voteResult_commit_oc (n : Node) (banks : Banks) (n' : Node)
    (h : n.voteResult banks = .commit n') :
    n'.blocks = n.blocks ∧
    ({ n with heaviest_fork := n'.heaviest_fork } : Node).optimistic_conf_check
        n'.heaviest_fork (n.filteredWeights banks) banks = some true := by
  simp only [Node.voteResult] at h
  split at h
  · exact VoteOutcome.noConfusion h
  rename_i hf hcf
  split at h
  · exact VoteOutcome.noConfusion h
  rename_i hroot
  split at h
  · exact VoteOutcome.noConfusion h
  rename_i tower happly
  split at h
  · exact VoteOutcome.noConfusion h
  · exact VoteOutcome.noConfusion h
  rename_i hlock
  split at h
  · exact VoteOutcome.noConfusion h
  rename_i bank hbank
  split at h
  · exact VoteOutcome.noConfusion h
  rename_i replica hreplica
  split at h
  all_goals try exact VoteOutcome.noConfusion h
  rename_i p0 pl hp0 hpl
  split at h
  · exact VoteOutcome.noConfusion h
  rename_i hps
  split at h
  · exact VoteOutcome.noConfusion h
  · exact VoteOutcome.noConfusion h
  rename_i hthr
  split at h
  · exact VoteOutcome.noConfusion h
  · exact VoteOutcome.noConfusion h
  rename_i hoc
  split at h
  · injection h with h'
    subst h'
    exact ⟨rfl, hoc⟩
  · exact VoteOutcome.noConfusion h

/-- Claim C4: whenever the node's current tower front exists and its slot
is not on the chosen heaviest fork, `Node::vote` commits the simulated
tower only if the summed visible weights of the slots beyond the last vote
on forks disjoint from it strictly exceed `NUM_NODES / 3`; otherwise the
attempt aborts. -/
theorem c4_switching_proof (n : Node) (banks : Banks) (n' : Node) (lv : Vote)
    (hcommit : n.voteResult banks = .commit n')
    (hfront : n.tower.votes.head? = some lv)
    (hswitch : lv.slot ∉ n'.heaviest_fork) :
    NUM_NODES / 3 < switchStake n banks lv := by
  obtain ⟨hblocks, hOC⟩ := voteResult_commit_oc n banks n' hcommit
  simp only [Node.optimistic_conf_check, hfront] at hOC
  rw [if_neg hswitch] at hOC
  cases hlvf : banks.compute_fork lv.slot with
  | none =>
    simp only [hlvf] at hOC
    exact Option.noConfusion hOC
  | some lvf =>
    simp only [hlvf] at hOC
    cases htot : ocTotal n.blocks banks lv lvf (n.filteredWeights banks) with
    | none =>
      simp only [htot] at hOC
      exact Option.noConfusion hOC
    | some total =>
      simp only [htot] at hOC
      have hlt : NUM_NODES / 3 < total := of_decide_eq_true (Option.some.inj hOC)
      have hsum := ocTotal_eq_sum n.blocks banks lv lvf hlvf banks.fork_weights total htot
      simp only [switchStake]
      rw [← hsum]
      exact hlt

/-- Banks and node of the C4 witness: three single-replica banks on two
forks; the node last voted slot 1 but fork 3 carries weight 400. -/
def c4b0 : Bank :=
  { nodes := [Tower.default], slot := 0, parent := 0, frozen := true,
    children := [1, 3], subcom := emptySubcom }

/-- Slot-1 bank of the C4 witness. -/
def c4b1 : Bank :=
  { nodes := [Tower.default], slot := 1, parent := 0, frozen := true,
    children := [], subcom := emptySubcom }

/-- Slot-3 bank of the C4 witness; its replica of validator 0 already
holds the vote `{3, 2}` so the threshold check passes. -/
def c4b3 : Bank :=
  { nodes := [{ votes := [⟨3, 2⟩], root := Vote.zero }], slot := 3, parent := 0,
    frozen := true, children := [], subcom := emptySubcom }

/-- Fork store of the C4 witness. -/
def c4banks : Banks :=
  { fork_map := [(0, c4b0), (1, c4b1), (3, c4b3)]
    fork_weights := [(0, 0), (1, 0), (3, 400)]
    lowest_root := Vote.zero }

/-- Node of the C4 witness: it last voted slot 1 with lockout 2, which
expires at slot 3. -/
def c4n : Node :=
  { id := 0, blocks := [0, 1, 3], tower := { votes := [⟨1, 2⟩], root := Vote.zero },
    heaviest_fork := [0] }

/-- The committed node of the C4 witness. -/
def c4post : Node :=
  match Node.voteResult c4n c4banks with
  | .commit m => m
  | _ => c4n

/-- Witness for C4: the vote attempt commits while switching away from the
last-voted fork, and the dissenting stake 400 exceeds `NUM_NODES / 3`. -/
theorem c4_switching_proof_witness :
    Node.voteResult c4n c4banks = .commit c4post ∧
      c4n.tower.votes.head? = some ⟨1, 2⟩ ∧
      (Vote.mk 1 2).slot ∉ c4post.heaviest_fork ∧
      NUM_NODES / 3 < switchStake c4n c4banks ⟨1, 2⟩ :=
  ⟨rfl, rfl, by decide,
    c4_switching_proof c4n c4banks c4post ⟨1, 2⟩ rfl rfl (by decide)⟩

/-! ### C6 — fatal conditions of Banks::apply -/

theorem AMap.find?_insert (m : List (Nat × α)) (k : Nat) (v : α) (j : Nat) :
    AMap.find? (AMap.insert m k v) j = if k = j then some v else AMap.find? m j := by
  induction m with
  | nil =>
    rw [AMap.insert]
    rfl
  | cons p t ih =>
    rcases p with ⟨k', v'⟩
    rw [AMap.insert]
    by_cases hk : k' = k
    · subst hk
      rw [if_pos rfl]
      by_cases hj : k' = j <;> simp [AMap.find?_cons, hj]
    · rw [if_neg hk]
      by_cases hj : k' = j
      · subst hj
        have hkj : ¬ (k = k') := fun he => hk he.symm
        simp [AMap.find?_cons, hkj]
      · simp [AMap.find?_cons, hj, ih]

theorem AMap.length_insert_of_isSome {m : List (Nat × α)} {k : Nat} (v : α)
    (h : (AMap.find? m k).isSome = true) :
    (AMap.insert m k v).length = m.length := by
  induction m with
  | nil =>
    rw [AMap.find?] at h
    exact Bool.noConfusion h
  | cons p t ih =>
    rcases p with ⟨k', v'⟩
    rw [AMap.insert]
    by_cases hk : k' = k
    · rw [if_pos hk, List.length_cons, List.length_cons]
    · rw [if_neg hk, List.length_cons, List.length_cons]
      rw [AMap.find?_cons, if_neg hk] at h
      rw [ih h]

theorem computeForkAux_congr (m₁ m₂ : List (Nat × Bank))
    (hpar : ∀ j, (AMap.find? m₁ j).map Bank.parent = (AMap.find? m₂ j).map Bank.parent) :
    ∀ (fuel last : Nat) (acc : List Nat),
      computeForkAux m₁ fuel last acc = computeForkAux m₂ fuel last acc := by
  intro fuel
  induction fuel with
  | zero => intro last acc; rfl
  | succ f ih =>
    intro last acc
    have h := hpar last
    cases h1 : AMap.find? m₁ last with
    | none =>
      rw [h1] at h
      cases h2 : AMap.find? m₂ last with
      | none => simp only [computeForkAux, h1, h2]
      | some b2 => rw [h2] at h; exact Option.noConfusion h
    | some b1 =>
      rw [h1] at h
      cases h2 : AMap.find? m₂ last with
      | none => rw [h2] at h; exact Option.noConfusion h
      | some b2 =>
        rw [h2] at h
        have hbp : b1.parent = b2.parent := Option.some.inj h
        simp only [computeForkAux, h1, h2]
        rw [hbp]
        by_cases hpl : b2.parent = last
        · rw [if_pos hpl, if_pos hpl]
        · rw [if_neg hpl, if_neg hpl]
          exact ih _ _

theorem foldl_applyOne_spec (fork : List Nat) (id : Nat) :
    ∀ (vs : List Vote) (nodes : List Tower), id < nodes.length →
      ((∃ v ∈ vs, v.slot ∉ fork) →
        vs.foldlM (fun acc v => Bank.applyOneVote acc fork id v) nodes
          = .error .forkViolation) ∧
      ((∀ v ∈ vs, v.slot ∈ fork) →
        ∃ nodes', vs.foldlM (fun acc v => Bank.applyOneVote acc fork id v) nodes
            = .ok nodes' ∧ nodes'.length = nodes.length) := by
  intro vs
  induction vs with
  | nil =>
    intro nodes _
    refine ⟨?_, ?_⟩
    · rintro ⟨v, hv, _⟩
      cases hv
    · intro _
      exact ⟨nodes, rfl, rfl⟩
  | cons v rest ih =>
    intro nodes hid
    by_cases hvin : v.slot ∈ fork
    · have hone : Bank.applyOneVote nodes fork id v
          = .ok (nodes.set id (match (nodes.get ⟨id, hid⟩).apply v with
              | .ok t' => t' | .error _ => (nodes.get ⟨id, hid⟩))) := by
        rw [Bank.applyOneVote, if_pos hvin]
        rw [List.getElem?_eq_getElem hid]
        rfl
      have hlen : (nodes.set id (match (nodes.get ⟨id, hid⟩).apply v with
          | .ok t' => t' | .error _ => (nodes.get ⟨id, hid⟩))).length = nodes.length :=
        List.length_set nodes _ _
      have hid' : id < (nodes.set id (match (nodes.get ⟨id, hid⟩).apply v with
          | .ok t' => t' | .error _ => (nodes.get ⟨id, hid⟩))).length := by
        rw [hlen]; exact hid
      obtain ⟨ihbad, ihok⟩ := ih _ hid'
      refine ⟨?_, ?_⟩
      · rintro ⟨w, hw, hwbad⟩
        rcases List.mem_cons.mp hw with rfl | hwrest
        · exact absurd hvin hwbad
        · rw [List.foldlM_cons, hone]
          exact ihbad ⟨w, hwrest, hwbad⟩
      · intro hall
        obtain ⟨nodes', hfold, hlen'⟩ := ihok (fun w hw => hall w (List.mem_cons_of_mem v hw))
        refine ⟨nodes', ?_, by rw [hlen', hlen]⟩
        rw [List.foldlM_cons, hone]
        exact hfold
    · have hone : Bank.applyOneVote nodes fork id v = .error .forkViolation := by
        rw [Bank.applyOneVote, if_neg hvin]
      refine ⟨?_, ?_⟩
      · intro _
        rw [List.foldlM_cons, hone]
        rfl
      · intro hall
        exact absurd (hall v (List.mem_cons_self v rest)) hvin

theorem applyVotes_spec (fork : List Nat) :
    ∀ (votes : List (Nat × List Vote)) (nodes : List Tower),
      (∀ p ∈ votes, p.1 < nodes.length) →
      ((∃ p ∈ votes, ∃ v ∈ p.2, v.slot ∉ fork) →
        Bank.applyVotes nodes fork votes = .error .forkViolation) ∧
      ((∀ p ∈ votes, ∀ v ∈ p.2, v.slot ∈ fork) →
        ∃ nodes', Bank.applyVotes nodes fork votes = .ok nodes'
          ∧ nodes'.length = nodes.length) := by
  intro votes
  induction votes with
  | nil =>
    intro nodes _
    refine ⟨?_, ?_⟩
    · rintro ⟨p, hp, _⟩
      cases hp
    · intro _
      exact ⟨nodes, rfl, rfl⟩
  | cons p rest ih =>
    intro nodes hids
    rcases p with ⟨id, vs⟩
    have hid : id < nodes.length := hids (id, vs) (List.mem_cons_self _ _)
    obtain ⟨hbad1, hok1⟩ := foldl_applyOne_spec fork id vs nodes hid
    refine ⟨?_, ?_⟩
    · rintro ⟨q, hq, w, hw, hwbad⟩
      by_cases hhead : ∀ v ∈ vs, v.slot ∈ fork
      · obtain ⟨nodes', hfold, hlen'⟩ := hok1 hhead
        have hids' : ∀ r ∈ rest, r.1 < nodes'.length := by
          intro r hr
          rw [hlen']
          exact hids r (List.mem_cons_of_mem _ hr)
        have hbadrest : ∃ r ∈ rest, ∃ v ∈ r.2, v.slot ∉ fork := by
          rcases List.mem_cons.mp hq with rfl | hqrest
          · exact absurd (hhead w hw) hwbad
          · exact ⟨q, hqrest, w, hw, hwbad⟩
        rw [Bank.applyVotes, hfold]
        exact (ih nodes' hids').1 hbadrest
      · push_neg at hhead
        obtain ⟨v, hv, hvbad⟩ := hhead
        rw [Bank.applyVotes, hbad1 ⟨v, hv, hvbad⟩]
        rfl
    · intro hall
      obtain ⟨nodes', hfold, hlen'⟩ :=
        hok1 (fun w hw => hall (id, vs) (List.mem_cons_self _ _) w hw)
      have hids' : ∀ r ∈ rest, r.1 < nodes'.length := by
        intro r hr
        rw [hlen']
        exact hids r (List.mem_cons_of_mem _ hr)
      obtain ⟨nodes'', hrest, hlen''⟩ :=
        (ih nodes' hids').2 (fun r hr w hw => hall r (List.mem_cons_of_mem _ hr) w hw)
      refine ⟨nodes'', ?_, by rw [hlen'', hlen']⟩
      rw [Bank.applyVotes, hfold]
      exact hrest


/-- The three fatal conditions named by C6, as a predicate on an apply
result. -/
def notNamedP (r : Except Fail Banks) : Prop :=
  r ≠ .error .doubleApply ∧ r ≠ .error .unknownParent ∧ r ≠ .error .forkViolation

theorem error_ne_error {e₁ e₂ : Fail} (h : e₁ ≠ e₂) :
    (Except.error e₁ : Except Fail Banks) ≠ Except.error e₂ :=
  fun hc => h (Except.error.inj hc)

theorem notNamed_of_error (e : Fail) (h₁ : e ≠ .doubleApply) (h₂ : e ≠ .unknownParent)
    (h₃ : e ≠ .forkViolation) : notNamedP (.error e) :=
  ⟨error_ne_error h₁, error_ne_error h₂, error_ne_error h₃⟩

theorem notNamed_of_ok (s₃ : Banks) : notNamedP (.ok s₃) :=
  ⟨fun h => Except.noConfusion h, fun h => Except.noConfusion h,
    fun h => Except.noConfusion h⟩

theorem applyTail_not_named_errors (s : Banks) (m₁ : List (Nat × Bank)) (bank : Bank)
    (hfresh : AMap.find? m₁ bank.slot = none) :
    notNamedP (s.applyTail m₁ bank) := by
  rw [Banks.applyTail]
  split
  · exact notNamed_of_error _ (by decide) (by decide) (by decide)
  · rw [if_neg (by rw [hfresh]; simp)]
    dsimp only
    split
    · split
      · exact notNamed_of_error _ (by decide) (by decide) (by decide)
      · split
        · exact notNamed_of_error _ (by decide) (by decide) (by decide)
        · exact notNamed_of_ok _
    · split
      · exact notNamed_of_error _ (by decide) (by decide) (by decide)
      · exact notNamed_of_ok _

theorem foldl_applyOne_good (fork : List Nat) (id : Nat) :
    ∀ (vs : List Vote) (nodes : List Tower), (∀ v ∈ vs, v.slot ∈ fork) →
      (∃ nodes', vs.foldlM (fun acc v => Bank.applyOneVote acc fork id v) nodes
          = .ok nodes') ∨
        vs.foldlM (fun acc v => Bank.applyOneVote acc fork id v) nodes
          = .error .badIndex := by
  intro vs
  induction vs with
  | nil =>
    intro nodes _
    exact Or.inl ⟨nodes, rfl⟩
  | cons v rest ih =>
    intro nodes hall
    have hvin : v.slot ∈ fork := hall v (List.mem_cons_self v rest)
    rw [List.foldlM_cons]
    cases hidx : nodes[id]? with
    | none =>
      rw [Bank.applyOneVote, if_pos hvin, hidx]
      exact Or.inr rfl
    | some t =>
      rw [Bank.applyOneVote, if_pos hvin, hidx]
      exact ih _ (fun w hw => hall w (List.mem_cons_of_mem v hw))

theorem applyVotes_good (fork : List Nat) :
    ∀ (votes : List (Nat × List Vote)) (nodes : List Tower),
      (∀ p ∈ votes, ∀ v ∈ p.2, v.slot ∈ fork) →
      (∃ nodes', Bank.applyVotes nodes fork votes = .ok nodes') ∨
        Bank.applyVotes nodes fork votes = .error .badIndex := by
  intro votes
  induction votes with
  | nil =>
    intro nodes _
    exact Or.inl ⟨nodes, rfl⟩
  | cons p rest ih =>
    intro nodes hall
    rcases p with ⟨id, vs⟩
    rcases foldl_applyOne_good fork id vs nodes
        (fun w hw => hall (id, vs) (List.mem_cons_self _ _) w hw) with ⟨nodes', hok⟩ | hbad
    · rw [Bank.applyVotes, hok]
      exact ih nodes' (fun r hr w hw => hall r (List.mem_cons_of_mem _ hr) w hw)
    · rw [Bank.applyVotes, hbad]
      exact Or.inr rfl

theorem bankApply_good (b : Bank) (block : Block) (fork : List Nat)
    (hv : ∀ p ∈ block.votes, ∀ v ∈ p.2, v.slot ∈ fork) :
    (∃ bank', b.apply block fork = .ok bank' ∧ bank'.slot = b.slot) ∨
    (∃ e, b.apply block fork = .error e ∧ e ≠ .doubleApply ∧ e ≠ .unknownParent
      ∧ e ≠ .forkViolation) := by
  rw [Bank.apply]
  by_cases hf : b.frozen = true
  · rw [if_pos hf]
    exact Or.inr ⟨.notFrozen, rfl, by decide, by decide, by decide⟩
  · rw [if_neg hf]
    by_cases hs : b.slot ≠ block.slot
    · rw [if_pos hs]
      exact Or.inr ⟨.brokenInvariant, rfl, by decide, by decide, by decide⟩
    · rw [if_neg hs]
      by_cases hp : b.parent ≠ block.parent
      · rw [if_pos hp]
        exact Or.inr ⟨.brokenInvariant, rfl, by decide, by decide, by decide⟩
      · rw [if_neg hp]
        rcases applyVotes_good fork block.votes b.nodes hv with ⟨nodes', hok⟩ | hbad
        · simp only [hok]
          cases hsr : ({ b with nodes := nodes' } : Bank).calc_super_root with
          | none =>
            simp only [hsr]
            exact Or.inr ⟨.badIndex, rfl, by decide, by decide, by decide⟩
          | some sr =>
            simp only [hsr]
            exact Or.inl ⟨_, rfl, rfl⟩
        · simp only [hbad]
          exact Or.inr ⟨.badIndex, rfl, by decide, by decide, by decide⟩

theorem bankApply_forkViolation (b : Bank) (block : Block) (fork : List Nat)
    (hf : b.frozen = false) (hs : b.slot = block.slot) (hp : b.parent = block.parent)
    (hids : ∀ p ∈ block.votes, p.1 < b.nodes.length)
    (hbad : ∃ p ∈ block.votes, ∃ v ∈ p.2, v.slot ∉ fork) :
    b.apply block fork = .error .forkViolation := by
  rw [Bank.apply]
  rw [if_neg (by rw [hf]; simp)]
  rw [if_neg (by rw [hs]; simp)]
  rw [if_neg (by rw [hp]; simp)]
  rw [(applyVotes_spec fork block.votes b.nodes hids).1 hbad]

/-- Claim C6: `Banks::apply(block)` panics with DoubleApply when
`block.slot` is already in `fork_map`, with UnknownParent when it is fresh
but `block.parent` is missing, and with ForkViolation when a carried vote
targets a slot outside `ancestors(block.parent) ∪ {block.slot}` (on a
well-formed frozen parent whose key matches its slot and whose carried
validator ids are in range); with a fresh slot, a present parent, and all
carried votes on the new fork, it never fails with any of those three
conditions. -/
theorem c6_banks_apply (s : Banks) (block : Block) :
    ((AMap.find? s.fork_map block.slot).isSome = true →
      s.apply block = .error .doubleApply) ∧
    (AMap.find? s.fork_map block.slot = none →
      AMap.find? s.fork_map block.parent = none →
      s.apply block = .error .unknownParent) ∧
    (∀ parent : Bank, AMap.find? s.fork_map block.slot = none →
      AMap.find? s.fork_map block.parent = some parent →
      parent.frozen = true → parent.slot = block.parent →
      (∀ p ∈ block.votes, p.1 < parent.nodes.length) →
      ∀ chain, s.compute_fork block.parent = some chain →
      (∃ p ∈ block.votes, ∃ v ∈ p.2, v.slot ∉ block.slot :: chain) →
      s.apply block = .error .forkViolation) ∧
    (AMap.find? s.fork_map block.slot = none →
      (AMap.find? s.fork_map block.parent).isSome = true →
      (∀ p ∈ block.votes, ∀ v ∈ p.2,
        v.slot ∈ block.slot :: (s.compute_fork block.parent).getD []) →
      s.apply block ≠ .error .doubleApply ∧
      s.apply block ≠ .error .unknownParent ∧
      s.apply block ≠ .error .forkViolation) := by
  refine ⟨?_, ?_, ?_, ?_⟩
  · intro h
    rw [Banks.apply, if_pos h]
  · intro h1 h2
    rw [Banks.apply, if_neg (by rw [h1]; simp)]
    simp only [h2]
  · intro parent h1 h2 hfroz hkey hids chain hchain hbad
    rw [Banks.apply, if_neg (by rw [h1]; simp)]
    simp only [h2]
    have hchild : parent.child block.slot = some
        ({ parent with children := parent.children ++ [block.slot] },
          ⟨parent.nodes, block.slot, parent.slot, false, [],
            (parent.subcom.child).init_child parent.subcom⟩) := by
      rw [Bank.child, if_pos hfroz]
    simp only [hchild]
    have hpar : ∀ j, (AMap.find? (AMap.insert s.fork_map block.parent
        { parent with children := parent.children ++ [block.slot] }) j).map Bank.parent
          = (AMap.find? s.fork_map j).map Bank.parent := by
      intro j
      rw [AMap.find?_insert]
      by_cases hj : block.parent = j
      · rw [if_pos hj, ← hj, h2]
        rfl
      · rw [if_neg hj]
    have hlen : (AMap.insert s.fork_map block.parent
        { parent with children := parent.children ++ [block.slot] }).length
          = s.fork_map.length :=
      AMap.length_insert_of_isSome _ (by rw [h2]; rfl)
    have hm₁ : computeForkAux (AMap.insert s.fork_map block.parent
        { parent with children := parent.children ++ [block.slot] })
        ((AMap.insert s.fork_map block.parent
          { parent with children := parent.children ++ [block.slot] }).length + 1)
        block.parent [block.parent] = some chain := by
      rw [computeForkAux_congr _ s.fork_map hpar, hlen]
      exact hchain
    simp only [hm₁]
    rw [bankApply_forkViolation
      (⟨parent.nodes, block.slot, parent.slot, false, [],
        (parent.subcom.child).init_child parent.subcom⟩ : Bank)
      block (block.slot :: chain) rfl rfl hkey hids hbad]
  · intro h1 hpar2 hvotes
    cases hp2 : AMap.find? s.fork_map block.parent with
    | none =>
      rw [hp2] at hpar2
      exact Bool.noConfusion hpar2
    | some parent =>
      show notNamedP (s.apply block)
      rw [Banks.apply, if_neg (by rw [h1]; simp)]
      simp only [hp2]
      by_cases hfroz : parent.frozen = true
      case neg =>
        have hchild : parent.child block.slot = none := by
          rw [Bank.child, if_neg hfroz]
        simp only [hchild]
        exact notNamed_of_error _ (by decide) (by decide) (by decide)
      case pos =>
        have hchild : parent.child block.slot = some
            ({ parent with children := parent.children ++ [block.slot] },
              ⟨parent.nodes, block.slot, parent.slot, false, [],
                (parent.subcom.child).init_child parent.subcom⟩) := by
          rw [Bank.child, if_pos hfroz]
        simp only [hchild]
        have hparj : ∀ j, (AMap.find? (AMap.insert s.fork_map block.parent
            { parent with children := parent.children ++ [block.slot] }) j).map Bank.parent
              = (AMap.find? s.fork_map j).map Bank.parent := by
          intro j
          rw [AMap.find?_insert]
          by_cases hj : block.parent = j
          · rw [if_pos hj, ← hj, hp2]
            rfl
          · rw [if_neg hj]
        have hlen : (AMap.insert s.fork_map block.parent
            { parent with children := parent.children ++ [block.slot] }).length
              = s.fork_map.length :=
          AMap.length_insert_of_isSome _ (by rw [hp2]; rfl)
        have hcfeq : computeForkAux (AMap.insert s.fork_map block.parent
            { parent with children := parent.children ++ [block.slot] })
            ((AMap.insert s.fork_map block.parent
              { parent with children := parent.children ++ [block.slot] }).length + 1)
            block.parent [block.parent] = s.compute_fork block.parent := by
          rw [computeForkAux_congr _ s.fork_map hparj, hlen]
          rfl
        cases hchain : s.compute_fork block.parent with
        | none =>
          rw [hchain] at hcfeq
          simp only [hcfeq]
          exact notNamed_of_error _ (by decide) (by decide) (by decide)
        | some chain =>
          rw [hchain] at hcfeq
          simp only [hcfeq]
          have hvotes' : ∀ p ∈ block.votes, ∀ v ∈ p.2, v.slot ∈ block.slot :: chain := by
            intro p hp v hv
            have hx := hvotes p hp v hv
            rwa [hchain] at hx
          have hps : ¬ (block.parent = block.slot) := by
            intro he
            rw [he, h1] at hp2
            exact Option.noConfusion hp2
          rcases bankApply_good
              ⟨parent.nodes, block.slot, parent.slot, false, [],
                (parent.subcom.child).init_child parent.subcom⟩
              block (block.slot :: chain) hvotes'
            with ⟨bank', hok, hslot'⟩ | ⟨e, herr, he1, he2, he3⟩
          · simp only [hok]
            apply applyTail_not_named_errors
            rw [hslot']
            show AMap.find? (AMap.insert s.fork_map block.parent
              { parent with children := parent.children ++ [block.slot] }) block.slot = none
            rw [AMap.find?_insert, if_neg hps]
            exact h1
          · simp only [herr]
            exact notNamed_of_error e he1 he2 he3

set_option maxRecDepth 1000000 in
/-- Witness for C6 at the genesis fork store: a duplicate slot 0 gives
DoubleApply, an unknown parent 5 gives UnknownParent, a carried vote for
slot 9 off the fork `[1, 0]` gives ForkViolation, and a clean block hits
none of the three. -/
theorem c6_banks_apply_witness :
    ((AMap.find? Banks.default.fork_map (0 : Nat)).isSome = true ∧
      Banks.default.apply { slot := 0, parent := 0, votes := [] } = .error .doubleApply) ∧
    (Banks.default.apply { slot := 1, parent := 5, votes := [] } = .error .unknownParent) ∧
    (Banks.default.apply { slot := 1, parent := 0, votes := [(0, [⟨9, 2⟩])] }
        = .error .forkViolation) ∧
    (Banks.default.apply { slot := 1, parent := 0, votes := [] } ≠ .error .doubleApply ∧
      Banks.default.apply { slot := 1, parent := 0, votes := [] } ≠ .error .unknownParent ∧
      Banks.default.apply { slot := 1, parent := 0, votes := [] } ≠ .error .forkViolation) :=
  ⟨⟨rfl, (c6_banks_apply Banks.default _).1 rfl⟩,
    (c6_banks_apply Banks.default _).2.1 rfl rfl,
    (c6_banks_apply Banks.default _).2.2.1 Bank.zero rfl rfl rfl rfl (by decide) [0] rfl
      (by decide),
    (c6_banks_apply Banks.default _).2.2.2 rfl rfl (by decide)⟩

/-! ### Claim C2: map lemmas -/

theorem AMap.find?_mem {α : Type} {m : List (Nat × α)} {k : Nat} {v : α}
    (h : AMap.find? m k = some v) : (k, v) ∈ m := by
  induction m with
  | nil => exact Option.noConfusion h
  | cons p t ih =>
    rcases p with ⟨k', v'⟩
    rw [AMap.find?] at h
    by_cases hk : k' = k
    · rw [if_pos hk] at h
      subst hk
      rw [Option.some.inj h]
      exact List.mem_cons_self _ _
    · rw [if_neg hk] at h
      exact List.mem_cons_of_mem _ (ih h)

theorem AMap.find?_of_mem_of_nodup {α : Type} {m : List (Nat × α)}
    (hnd : (AMap.keys m).Nodup) {p : Nat × α} (hp : p ∈ m) :
    AMap.find? m p.1 = some p.2 := by
  induction m with
  | nil => cases hp
  | cons q t ih =>
    rcases q with ⟨k', v'⟩
    rw [AMap.keys, List.map_cons] at hnd
    rcases List.mem_cons.mp hp with rfl | hpt
    · rw [AMap.find?, if_pos rfl]
    · rw [AMap.find?]
      have hne : k' ≠ p.1 := by
        intro he
        have : p.1 ∈ AMap.keys t := List.mem_map_of_mem Prod.fst hpt
        rw [← he] at this
        exact (List.nodup_cons.mp hnd).1 this
      rw [if_neg hne]
      exact ih (List.nodup_cons.mp hnd).2 hpt

theorem AMap.keys_insert {α : Type} (m : List (Nat × α)) (k : Nat) (v : α) :
    AMap.keys (AMap.insert m k v) =
      if (AMap.find? m k).isSome then AMap.keys m else AMap.keys m ++ [k] := by
  induction m with
  | nil => rfl
  | cons p t ih =>
    rcases p with ⟨k', v'⟩
    rw [AMap.insert]
    by_cases hk : k' = k
    · subst hk
      rw [if_pos rfl, AMap.find?, if_pos rfl]
      rfl
    · rw [if_neg hk, AMap.find?, if_neg hk]
      rw [AMap.keys, List.map_cons, AMap.keys, List.map_cons] at *
      rw [ih]
      by_cases hs : (AMap.find? t k).isSome
      · rw [if_pos hs, if_pos hs]
      · rw [if_neg hs, if_neg hs, List.cons_append]

theorem AMap.keys_nodup_insert {α : Type} {m : List (Nat × α)} (k : Nat) (v : α)
    (hnd : (AMap.keys m).Nodup) : (AMap.keys (AMap.insert m k v)).Nodup := by
  rw [AMap.keys_insert]
  by_cases hs : (AMap.find? m k).isSome
  · rw [if_pos hs]; exact hnd
  · rw [if_neg hs]
    have hk : k ∉ AMap.keys m := by
      intro hmem
      exact hs ((AMap.find?_isSome_iff_mem_keys m k).mpr hmem)
    rw [List.nodup_append]
    exact ⟨hnd, List.nodup_singleton k, by
      intro a ha hb
      rw [List.mem_singleton] at hb
      subst hb
      exact hk ha⟩

theorem AMap.find?_append {α : Type} (m₁ m₂ : List (Nat × α)) (k : Nat) :
    AMap.find? (m₁ ++ m₂) k =
      match AMap.find? m₁ k with
      | some v => some v
      | none => AMap.find? m₂ k := by
  induction m₁ with
  | nil => rfl
  | cons p t ih =>
    rcases p with ⟨k', v'⟩
    rw [List.cons_append, AMap.find?, AMap.find?]
    by_cases hk : k' = k
    · rw [if_pos hk, if_pos hk]
    · rw [if_neg hk, if_neg hk, ih]

theorem AMap.find?_erase {α : Type} (m : List (Nat × α)) (k j : Nat) :
    AMap.find? (AMap.erase m k) j = if j = k then none else AMap.find? m j := by
  induction m with
  | nil =>
    by_cases hj : j = k
    · rw [if_pos hj]
      rfl
    · rw [if_neg hj]
      rfl
  | cons p t ih =>
    rcases p with ⟨k', v'⟩
    have hstep : AMap.erase ((k', v') :: t) k =
        if k' = k then AMap.erase t k else (k', v') :: AMap.erase t k := by
      by_cases hk : k' = k
      · rw [if_pos hk]
        simp [AMap.erase, List.filter_cons, hk]
      · rw [if_neg hk]
        simp [AMap.erase, List.filter_cons, hk]
    rw [hstep]
    by_cases hk : k' = k
    · rw [if_pos hk, ih]
      by_cases hj : j = k
      · rw [if_pos hj, if_pos hj]
      · rw [if_neg hj, if_neg hj, AMap.find?_cons]
        have hne : ¬ ((k', v').1 = j) := by
          intro he
          exact hj (by rw [← he, hk])
        rw [if_neg hne]
    · rw [if_neg hk, AMap.find?_cons, AMap.find?_cons]
      by_cases hj : (k', v').1 = j
      · have hjk : ¬ (j = k) := by
          intro he
          exact hk (by rw [show k' = j from hj, he])
        rw [if_pos hj, if_neg hjk, if_pos hj]
      · rw [if_neg hj, if_neg hj, ih]

/-! ### Claim C2: the parent chain -/

/-- Iterated parent lookup in the fork map: `n` steps up the chain
(`none` when a visited slot is missing). -/
def parentIter (m : List (Nat × Bank)) : Nat → Nat → Option Nat
  | 0, k => some k
  | n + 1, k =>
    match AMap.find? m k with
    | none => none
    | some b => parentIter m n b.parent

theorem parentIter_add (m : List (Nat × Bank)) :
    ∀ (a b k : Nat), parentIter m (a + b) k = (parentIter m a k).bind (parentIter m b) := by
  intro a
  induction a with
  | zero =>
    intro b k
    rw [Nat.zero_add]
    rfl
  | succ a ih =>
    intro b k
    have hsa : a + 1 + b = (a + b) + 1 := by omega
    rw [hsa]
    cases hfk : AMap.find? m k with
    | none => simp [parentIter, hfk]
    | some bk =>
      simp only [parentIter, hfk]
      exact ih b bk.parent

theorem parentIter_mono (m m' : List (Nat × Bank))
    (hagree : ∀ j b, AMap.find? m j = some b →
      ∃ b', AMap.find? m' j = some b' ∧ b'.parent = b.parent) :
    ∀ (n k r : Nat), parentIter m n k = some r → parentIter m' n k = some r := by
  intro n
  induction n with
  | zero => intro k r h; exact h
  | succ n ih =>
    intro k r h
    cases hfk : AMap.find? m k with
    | none =>
      rw [parentIter] at h
      rw [hfk] at h
      exact Option.noConfusion h
    | some b =>
      simp only [parentIter, hfk] at h
      obtain ⟨b', hb', hbp⟩ := hagree k b hfk
      simp only [parentIter, hb', hbp]
      exact ih _ _ h

theorem parentIter_congr_on (m m' : List (Nat × Bank)) :
    ∀ (n k r : Nat),
      (∀ t, t < n → ∃ j, parentIter m t k = some j ∧ AMap.find? m' j = AMap.find? m j) →
      parentIter m n k = some r → parentIter m' n k = some r := by
  intro n
  induction n with
  | zero => intro k r _ h; exact h
  | succ n ih =>
    intro k r hvis h
    obtain ⟨j, hj, hagree⟩ := hvis 0 (Nat.succ_pos n)
    have hjk : k = j := by
      simpa [parentIter] using hj
    subst hjk
    cases hfk : AMap.find? m k with
    | none =>
      rw [parentIter, hfk] at h
      exact Option.noConfusion h
    | some b =>
      simp only [parentIter, hfk] at h
      simp only [parentIter, hagree, hfk]
      refine ih b.parent r ?_ h
      intro t ht
      obtain ⟨j', hj', hagree'⟩ := hvis (t + 1) (by omega)
      refine ⟨j', ?_, hagree'⟩
      simp only [parentIter, hfk] at hj'
      exact hj'

/-- The children list stored at a key (empty when the key is absent). -/
def chList (m : List (Nat × Bank)) (k : Nat) : List Nat :=
  match AMap.find? m k with
  | none => []
  | some b => b.children

/-! ### Claim C2: worklist traversal lemmas -/

theorem walkTree_cons_elim {m : List (Nat × Bank)} {fuel : Nat} {k : Nat}
    {rest L : List Nat} (h : walkTree m (fuel + 1) (k :: rest) = some L) :
    ∃ b L', AMap.find? m k = some b ∧
      walkTree m fuel (b.children.reverse ++ rest) = some L' ∧ L = k :: L' := by
  cases hfk : AMap.find? m k with
  | none =>
    rw [walkTree, hfk] at h
    exact Option.noConfusion h
  | some b =>
    simp only [walkTree, hfk] at h
    cases hw : walkTree m fuel (b.children.reverse ++ rest) with
    | none =>
      rw [hw] at h
      exact Option.noConfusion h
    | some L' =>
      rw [hw] at h
      refine ⟨b, L', rfl, hw, ?_⟩
      simpa using h.symm

theorem walkTree_keys (m : List (Nat × Bank)) :
    ∀ (fuel : Nat) (S L : List Nat), walkTree m fuel S = some L →
      ∀ x ∈ L, (AMap.find? m x).isSome = true := by
  intro fuel
  induction fuel with
  | zero =>
    intro S L h
    exact Option.noConfusion h
  | succ fuel ih =>
    intro S L h
    cases S with
    | nil =>
      have hL : L = [] := (Option.some.inj h).symm
      subst hL
      intro x hx
      cases hx
    | cons k rest =>
      obtain ⟨b, L', hfk, hw, hL⟩ := walkTree_cons_elim h
      subst hL
      intro x hx
      rcases List.mem_cons.mp hx with rfl | hx'
      · rw [hfk]
        rfl
      · exact ih _ _ hw x hx'

theorem walkTree_stack_subset (m : List (Nat × Bank)) :
    ∀ (fuel : Nat) (S L : List Nat), walkTree m fuel S = some L → ∀ x ∈ S, x ∈ L := by
  intro fuel
  induction fuel with
  | zero =>
    intro S L h
    exact Option.noConfusion h
  | succ fuel ih =>
    intro S L h
    cases S with
    | nil =>
      intro x hx
      cases hx
    | cons k rest =>
      obtain ⟨b, L', hfk, hw, hL⟩ := walkTree_cons_elim h
      subst hL
      intro x hx
      rcases List.mem_cons.mp hx with rfl | hx'
      · exact List.mem_cons_self _ _
      · exact List.mem_cons_of_mem _
          (ih _ _ hw x (List.mem_append.mpr (Or.inr hx')))

theorem walkTree_closure (m : List (Nat × Bank)) :
    ∀ (fuel : Nat) (S L : List Nat), walkTree m fuel S = some L →
      ∀ k ∈ L, ∀ b, AMap.find? m k = some b → ∀ c ∈ b.children, c ∈ L := by
  intro fuel
  induction fuel with
  | zero =>
    intro S L h
    exact Option.noConfusion h
  | succ fuel ih =>
    intro S L h
    cases S with
    | nil =>
      have hL : L = [] := (Option.some.inj h).symm
      subst hL
      intro k hk
      cases hk
    | cons k₀ rest =>
      obtain ⟨b₀, L', hfk₀, hw, hL⟩ := walkTree_cons_elim h
      subst hL
      intro k hk b hb c hc
      rcases List.mem_cons.mp hk with rfl | hk'
      · have hbb : b = b₀ := by
          rw [hfk₀] at hb
          exact (Option.some.inj hb).symm
        subst hbb
        refine List.mem_cons_of_mem _ ?_
        refine walkTree_stack_subset m _ _ _ hw c ?_
        exact List.mem_append.mpr (Or.inl (List.mem_reverse.mpr hc))
      · exact List.mem_cons_of_mem _ (ih _ _ hw k hk' b hb c hc)

theorem walkTree_origin (m : List (Nat × Bank)) :
    ∀ (fuel : Nat) (S L : List Nat), walkTree m fuel S = some L →
      ∀ x ∈ L, x ∈ S ∨ ∃ k b, k ∈ L ∧ AMap.find? m k = some b ∧ x ∈ b.children := by
  intro fuel
  induction fuel with
  | zero =>
    intro S L h
    exact Option.noConfusion h
  | succ fuel ih =>
    intro S L h
    cases S with
    | nil =>
      have hL : L = [] := (Option.some.inj h).symm
      subst hL
      intro x hx
      cases hx
    | cons k₀ rest =>
      obtain ⟨b₀, L', hfk₀, hw, hL⟩ := walkTree_cons_elim h
      subst hL
      intro x hx
      rcases List.mem_cons.mp hx with rfl | hx'
      · exact Or.inl (List.mem_cons_self _ _)
      · rcases ih _ _ hw x hx' with hmem | ⟨k, b, hkL, hfb, hxc⟩
        · rcases List.mem_append.mp hmem with hrev | hrest
          · exact Or.inr ⟨k₀, b₀, List.mem_cons_self _ _, hfk₀, List.mem_reverse.mp hrev⟩
          · exact Or.inl (List.mem_cons_of_mem _ hrest)
        · exact Or.inr ⟨k, b, List.mem_cons_of_mem _ hkL, hfb, hxc⟩

theorem walkTree_perm (m : List (Nat × Bank)) :
    ∀ (fuel : Nat) (S L : List Nat), walkTree m fuel S = some L →
      L.Perm (S ++ L.flatMap (chList m)) := by
  intro fuel
  induction fuel with
  | zero =>
    intro S L h
    exact Option.noConfusion h
  | succ fuel ih =>
    intro S L h
    cases S with
    | nil =>
      have hL : L = [] := (Option.some.inj h).symm
      subst hL
      exact List.Perm.refl _
    | cons k rest =>
      obtain ⟨b, L', hfk, hw, hL⟩ := walkTree_cons_elim h
      subst hL
      have hch : chList m k = b.children := by
        simp [chList, hfk]
      have hgoal : (k :: rest) ++ (k :: L').flatMap (chList m)
          = k :: (rest ++ (b.children ++ L'.flatMap (chList m))) := by
        rw [List.flatMap_cons, hch, List.cons_append]
      rw [hgoal]
      refine List.Perm.cons k ?_
      refine (ih _ _ hw).trans ?_
      have h1 : (b.children.reverse ++ rest).Perm (rest ++ b.children) :=
        (List.perm_append_comm).trans
          (List.Perm.append_left rest (List.reverse_perm b.children))
      have h2 := List.Perm.append_right (L'.flatMap (chList m)) h1
      refine h2.trans ?_
      rw [List.append_assoc]

theorem walkTree_order (m : List (Nat × Bank))
    (H3 : ∀ k b, AMap.find? m k = some b → ∀ c ∈ b.children,
      ∃ cb, AMap.find? m c = some cb ∧ cb.parent = k) :
    ∀ (fuel : Nat) (S L : List Nat), walkTree m fuel S = some L →
      ∀ (j : Nat) (hj : j < L.length), L[j] ∈ S ∨
        ∃ (i : Nat) (hi : i < L.length), i < j ∧
          ∃ b, AMap.find? m (L[j]) = some b ∧ L[i] = b.parent := by
  intro fuel
  induction fuel with
  | zero =>
    intro S L h
    exact Option.noConfusion h
  | succ fuel ih =>
    intro S L h
    cases S with
    | nil =>
      have hL : L = [] := (Option.some.inj h).symm
      subst hL
      intro j hj
      exact absurd hj (by simp)
    | cons k rest =>
      obtain ⟨b, L', hfk, hw, hL⟩ := walkTree_cons_elim h
      subst hL
      intro j hj
      cases j with
      | zero =>
        left
        simp only [List.getElem_cons_zero]
        exact List.mem_cons_self _ _
      | succ j' =>
        have hj' : j' < L'.length := by
          simpa using hj
        simp only [List.getElem_cons_succ]
        rcases ih _ _ hw j' hj' with hmem | ⟨i', hi', hlt, b', hfb, hpar⟩
        · rcases List.mem_append.mp hmem with hrev | hrest
          · obtain ⟨cb, hcb, hcbp⟩ := H3 k b hfk _ (List.mem_reverse.mp hrev)
            right
            refine ⟨0, by simp, Nat.succ_pos j', cb, hcb, ?_⟩
            simp only [List.getElem_cons_zero]
            exact hcbp.symm
          · exact Or.inl (List.mem_cons_of_mem _ hrest)
        · right
          refine ⟨i' + 1, by simpa using hi', by omega, b', hfb, ?_⟩
          simp only [List.getElem_cons_succ]
          exact hpar

theorem walkTree_chain (m : List (Nat × Bank))
    (H3 : ∀ k b, AMap.find? m k = some b → ∀ c ∈ b.children,
      ∃ cb, AMap.find? m c = some cb ∧ cb.parent = k)
    (r : Nat) (fuel : Nat) (L : List Nat) (h : walkTree m fuel [r] = some L) :
    ∀ (j : Nat) (hj : j < L.length), ∃ n, n ≤ j ∧ parentIter m n (L[j]) = some r ∧
      ∀ t, t ≤ n → ∃ (i : Nat) (hi : i < L.length), parentIter m t (L[j]) = some (L[i]) := by
  intro j
  induction j using Nat.strong_induction_on with
  | _ j ihs =>
    intro hj
    rcases walkTree_order m H3 fuel [r] L h j hj with hmem | ⟨i, hi, hij, b, hfb, hpar⟩
    · have hr : L[j] = r := List.mem_singleton.mp hmem
      refine ⟨0, Nat.zero_le _, by rw [show parentIter m 0 (L[j]) = some (L[j]) from rfl, hr], ?_⟩
      intro t ht
      have ht0 : t = 0 := Nat.le_zero.mp ht
      subst ht0
      exact ⟨j, hj, rfl⟩
    · obtain ⟨n, hn, hpi, hint⟩ := ihs i hij hi
      refine ⟨n + 1, by omega, ?_, ?_⟩
      · simp only [parentIter, hfb]
        rw [← hpar]
        exact hpi
      · intro t ht
        cases t with
        | zero => exact ⟨j, hj, rfl⟩
        | succ t' =>
          simp only [parentIter, hfb]
          rw [← hpar]
          exact hint t' (by omega)

theorem count_flatMap_eq (l : List Nat) (f : Nat → List Nat) (x : Nat) :
    (l.flatMap f).count x = (l.map (fun a => (f a).count x)).sum := by
  induction l with
  | nil => rfl
  | cons a t ih =>
    rw [List.flatMap_cons, List.count_append, List.map_cons, List.sum_cons, ih]

theorem sum_map_single (p : Nat) (f : Nat → Nat) :
    ∀ (l : List Nat), (∀ k, k ≠ p → f k = 0) → (l.map f).sum = l.count p * f p := by
  intro l h
  induction l with
  | nil => simp
  | cons a t ih =>
    rw [List.map_cons, List.sum_cons, ih]
    by_cases ha : a = p
    · subst ha
      rw [List.count_cons_self, Nat.succ_mul]
      omega
    · rw [h a ha, List.count_cons_of_ne (fun he => ha he.symm)]
      omega

theorem walkTree_nodup (m : List (Nat × Bank))
    (H3 : ∀ k b, AMap.find? m k = some b → ∀ c ∈ b.children,
      ∃ cb, AMap.find? m c = some cb ∧ cb.parent = k)
    (H5 : ∀ k b, AMap.find? m k = some b → b.children.Nodup)
    (r : Nat) (fuel : Nat) (L : List Nat) (h : walkTree m fuel [r] = some L)
    (HR : ∀ k ∈ L, ∀ b, AMap.find? m k = some b → r ∉ b.children) :
    L.Nodup := by
  have hcnt : ∀ x, L.count x = [r].count x + (L.flatMap (chList m)).count x := by
    intro x
    rw [← List.count_append]
    exact (walkTree_perm m fuel [r] L h).count_eq x
  have hchx : ∀ x, (L.flatMap (chList m)).count x
      = (L.map (fun k => (chList m k).count x)).sum := fun x => count_flatMap_eq L _ x
  have hroot : L.count r = 1 := by
    rw [hcnt r, hchx r]
    have hz : (L.map (fun k => (chList m k).count r)).sum = 0 := by
      refine List.sum_eq_zero ?_
      intro y hy
      obtain ⟨k, hk, hky⟩ := List.mem_map.mp hy
      rw [← hky]
      cases hfk : AMap.find? m k with
      | none => simp [chList, hfk]
      | some b =>
        simp only [chList, hfk]
        exact List.count_eq_zero.mpr (HR k hk b hfk)
    rw [hz]
    simp
  have hstep : ∀ x bx, AMap.find? m x = some bx → x ≠ r →
      L.count x ≤ L.count bx.parent := by
    intro x bx hfx hxr
    have h0 : [r].count x = 0 :=
      List.count_eq_zero.mpr (fun hm => hxr (List.mem_singleton.mp hm))
    have hsingle : ∀ k, k ≠ bx.parent → (chList m k).count x = 0 := by
      intro k hk
      cases hfk : AMap.find? m k with
      | none => simp [chList, hfk]
      | some b =>
        simp only [chList, hfk]
        refine List.count_eq_zero.mpr ?_
        intro hxc
        obtain ⟨cb, hcb, hcbp⟩ := H3 k b hfk x hxc
        have hcbx : cb = bx := by
          rw [hfx] at hcb
          exact (Option.some.inj hcb).symm
        subst hcbx
        exact hk hcbp.symm
    have hle : (chList m bx.parent).count x ≤ 1 := by
      cases hfp : AMap.find? m bx.parent with
      | none => simp [chList, hfp]
      | some pb =>
        simp only [chList, hfp]
        exact List.nodup_iff_count_le_one.mp (H5 _ pb hfp) x
    rw [hcnt x, hchx x, h0, Nat.zero_add,
      sum_map_single bx.parent (fun k => (chList m k).count x) L hsingle]
    have h2 := Nat.mul_le_mul_left (L.count bx.parent) hle
    rw [Nat.mul_one] at h2
    exact h2
  have hchain : ∀ n x, parentIter m n x = some r → L.count x ≤ 1 := by
    intro n
    induction n with
    | zero =>
      intro x hx
      have hxr : x = r := Option.some.inj hx
      subst hxr
      exact Nat.le_of_eq hroot
    | succ n ih =>
      intro x hx
      cases hfx : AMap.find? m x with
      | none =>
        rw [parentIter, hfx] at hx
        exact Option.noConfusion hx
      | some bx =>
        simp only [parentIter, hfx] at hx
        by_cases hxr : x = r
        · subst hxr
          exact Nat.le_of_eq hroot
        · exact Nat.le_trans (hstep x bx hfx hxr) (ih bx.parent hx)
  rw [List.nodup_iff_count_le_one]
  intro x
  by_cases hx : x ∈ L
  · obtain ⟨j, hj, hLj⟩ := List.mem_iff_getElem.mp hx
    obtain ⟨n, _, hpi, _⟩ := walkTree_chain m H3 r fuel L h j hj
    rw [← hLj]
    exact hchain n (L[j]) hpi
  · rw [List.count_eq_zero.mpr hx]
    omega

theorem walkTree_cover (m : List (Nat × Bank)) (r : Nat)
    (H6 : ∀ k b, AMap.find? m k = some b → k ≠ r →
      ∃ pb, AMap.find? m b.parent = some pb ∧ k ∈ pb.children)
    (fuel : Nat) (L : List Nat) (h : walkTree m fuel [r] = some L) :
    ∀ (n k : Nat), parentIter m n k = some r → (AMap.find? m k).isSome = true → k ∈ L := by
  intro n
  induction n with
  | zero =>
    intro k hpi _
    have hkr : k = r := Option.some.inj hpi
    rw [hkr]
    exact walkTree_stack_subset m fuel [r] L h r (List.mem_singleton_self r)
  | succ n ih =>
    intro k hpi hks
    by_cases hkr : k = r
    · rw [hkr]
      exact walkTree_stack_subset m fuel [r] L h r (List.mem_singleton_self r)
    · cases hfk : AMap.find? m k with
      | none =>
        rw [hfk] at hks
        exact Bool.noConfusion hks
      | some bk =>
        simp only [parentIter, hfk] at hpi
        obtain ⟨pb, hpb, hkch⟩ := H6 k bk hfk hkr
        have hpL : bk.parent ∈ L := ih bk.parent hpi (by rw [hpb]; rfl)
        exact walkTree_closure m fuel [r] L h bk.parent hpL pb hpb k hkch

/-! ### Claim C2: garbage collection rebuild -/

theorem AMap.find?_append_right_none {α : Type} {m₂ : List (Nat × α)} {k : Nat}
    (acc : List (Nat × α)) (h : AMap.find? m₂ k = none) :
    AMap.find? (acc ++ m₂) k = AMap.find? acc k := by
  rw [AMap.find?_append]
  cases hfa : AMap.find? acc k with
  | none => rw [h]
  | some v => rfl

theorem AMap.find?_append_left_none {α : Type} {acc : List (Nat × α)} {k : Nat}
    (m₂ : List (Nat × α)) (h : AMap.find? acc k = none) :
    AMap.find? (acc ++ m₂) k = AMap.find? m₂ k := by
  rw [AMap.find?_append, h]

theorem gcRebuild_spec :
    ∀ (L : List Nat) (m acc : List (Nat × Bank)), L.Nodup →
      (∀ v ∈ L, (AMap.find? m v).isSome = true) →
      (∀ v ∈ L, AMap.find? acc v = none) →
      ∃ m', gcRebuild L m acc = some m' ∧
        AMap.keys m' = AMap.keys acc ++ L ∧
        (∀ k, AMap.find? m' k = if k ∈ L then AMap.find? m k else AMap.find? acc k) := by
  intro L
  induction L with
  | nil =>
    intro m acc _ _ _
    refine ⟨acc, rfl, by simp [AMap.keys], ?_⟩
    intro k
    rw [if_neg (by simp)]
  | cons v vs ih =>
    intro m acc hnd hsome hacc
    cases hfv : AMap.find? m v with
    | none =>
      have := hsome v (List.mem_cons_self _ _)
      rw [hfv] at this
      exact Bool.noConfusion this
    | some b =>
      have hvnotvs : v ∉ vs := (List.nodup_cons.mp hnd).1
      have h1 : ∀ u ∈ vs, (AMap.find? (AMap.erase m v) u).isSome = true := by
        intro u hu
        rw [AMap.find?_erase, if_neg (fun he : u = v => hvnotvs (he ▸ hu))]
        exact hsome u (List.mem_cons_of_mem _ hu)
      have h2 : ∀ u ∈ vs, AMap.find? (acc ++ [(v, b)]) u = none := by
        intro u hu
        have hne : AMap.find? [(v, b)] u = none := by
          rw [AMap.find?_cons, if_neg (fun he : v = u => hvnotvs (he ▸ hu))]
          rfl
        rw [AMap.find?_append_right_none acc hne]
        exact hacc u (List.mem_cons_of_mem _ hu)
      obtain ⟨m', hgc, hkeys, hfind⟩ :=
        ih (AMap.erase m v) (acc ++ [(v, b)]) (List.nodup_cons.mp hnd).2 h1 h2
      refine ⟨m', ?_, ?_, ?_⟩
      · simp only [gcRebuild, hfv]
        exact hgc
      · rw [hkeys]
        simp [AMap.keys]
      · intro k
        rw [hfind k]
        by_cases hkvs : k ∈ vs
        · rw [if_pos hkvs, if_pos (List.mem_cons_of_mem _ hkvs)]
          rw [AMap.find?_erase, if_neg (fun he : k = v => hvnotvs (he ▸ hkvs))]
        · rw [if_neg hkvs]
          by_cases hkv : k = v
          · subst hkv
            rw [if_pos (List.mem_cons_self _ _)]
            rw [AMap.find?_append_left_none [(k, b)] (hacc k (List.mem_cons_self _ _))]
            rw [AMap.find?_cons, if_pos rfl, hfv]
          · rw [if_neg (by
              intro hm
              rcases List.mem_cons.mp hm with he | hm'
              · exact hkv he
              · exact hkvs hm')]
            have hne : AMap.find? [(v, b)] k = none := by
              rw [AMap.find?_cons, if_neg (fun he : v = k => hkv he.symm)]
              rfl
            rw [AMap.find?_append_right_none acc hne]

/-! ### Claim C2: the weight-assignment fold -/

theorem weightsFold_stable (m : List (Nat × Bank)) (sv : List (Nat × Nat)) :
    ∀ (L : List Nat) (w w' : List (Nat × Nat)), weightsFold m sv L w = some w' →
      ∀ k, k ∉ L → AMap.find? w' k = AMap.find? w k := by
  intro L
  induction L with
  | nil =>
    intro w w' h k _
    rw [← Option.some.inj h]
  | cons k₀ ks ih =>
    intro w w' h k hk
    cases hfk : AMap.find? m k₀ with
    | none =>
      rw [weightsFold, hfk] at h
      exact Option.noConfusion h
    | some b =>
      simp only [weightsFold, hfk] at h
      rw [ih _ w' h k (fun hm => hk (List.mem_cons_of_mem _ hm))]
      rw [AMap.find?_insert, if_neg (fun he : k₀ = k => hk (he ▸ List.mem_cons_self k₀ ks))]

theorem weightsFold_spec (m : List (Nat × Bank)) (sv : List (Nat × Nat)) :
    ∀ (L : List Nat) (w w' : List (Nat × Nat)), weightsFold m sv L w = some w' →
      L.Nodup → (∀ x ∈ L, AMap.find? w x = none) →
      (∀ x bx, x ∈ L → AMap.find? m x = some bx → bx.parent ∉ L →
        AMap.find? w' x
          = some ((AMap.find? w bx.parent).getD 0 + (AMap.find? sv x).getD 0)) ∧
      (∀ x bx A B, AMap.find? m x = some bx → L = A ++ bx.parent :: B → x ∈ B →
        AMap.find? w' x
          = some ((AMap.find? w' bx.parent).getD 0 + (AMap.find? sv x).getD 0)) := by
  intro L
  induction L with
  | nil =>
    intro w w' h _ _
    refine ⟨?_, ?_⟩
    · intro x bx hx
      cases hx
    · intro x bx A B _ hL _
      cases A with
      | nil => exact List.noConfusion hL
      | cons a A2 => exact List.noConfusion hL
  | cons k ks ih =>
    intro w w' h hnd hwnone
    cases hfk : AMap.find? m k with
    | none =>
      rw [weightsFold, hfk] at h
      exact Option.noConfusion h
    | some bk =>
      have hwk : AMap.find? w k = none := hwnone k (List.mem_cons_self _ _)
      simp only [weightsFold, hfk, hwk, Option.getD_none] at h
      have hknotks : k ∉ ks := (List.nodup_cons.mp hnd).1
      have hwnone1 : ∀ x ∈ ks, AMap.find?
          (AMap.insert w k ((AMap.find? w bk.parent).getD 0 + (AMap.find? sv k).getD 0))
          x = none := by
        intro x hx
        rw [AMap.find?_insert, if_neg (fun he : k = x => hknotks (he.symm ▸ hx))]
        exact hwnone x (List.mem_cons_of_mem _ hx)
      obtain ⟨IH1, IH2⟩ := ih _ w' h (List.nodup_cons.mp hnd).2 hwnone1
      have hfinalk : AMap.find? w' k
          = some ((AMap.find? w bk.parent).getD 0 + (AMap.find? sv k).getD 0) := by
        rw [weightsFold_stable m sv ks _ w' h k hknotks]
        rw [AMap.find?_insert, if_pos rfl]
      refine ⟨?_, ?_⟩
      · intro x bx hx hfbx hpar
        rcases List.mem_cons.mp hx with rfl | hxks
        · have hbb : bx = bk := by
            rw [hfk] at hfbx
            exact (Option.some.inj hfbx).symm
          subst hbb
          exact hfinalk
        · have hparks : bx.parent ∉ ks := fun hm => hpar (List.mem_cons_of_mem _ hm)
          rw [IH1 x bx hxks hfbx hparks]
          have hpk : bx.parent ≠ k := fun he => hpar (he ▸ List.mem_cons_self k ks)
          rw [AMap.find?_insert, if_neg (fun he => hpk he.symm)]
      · intro x bx A B hfbx hL hxB
        cases A with
        | nil =>
          injection hL with hkp hksB
          have hxks : x ∈ ks := by
            rw [hksB]
            exact hxB
          have hparks : bx.parent ∉ ks := by
            rw [← hkp]
            exact hknotks
          rw [IH1 x bx hxks hfbx hparks]
          rw [AMap.find?_insert, if_pos hkp, Option.getD_some]
          rw [← hkp, hfinalk, Option.getD_some]
        | cons a A2 =>
          injection hL with hka hks2
          exact IH2 x bx A2 B hfbx hks2 hxB

/-! ### Claim C2: the merged latest-vote table and the per-slot counts -/

/-- The latest-vote slot of one tower replica: `latest_vote()`, or the root
when the vote stack is empty (`src/bank.rs`, `Bank::latest_votes`). -/
def nodeLatest (t : Tower) : Nat := (t.latest_vote.getD t.root).slot

/-- The per-validator maximum of `nodeLatest` over all banks of a fork map:
the quantity the claim calls the validator's latest-vote slot. -/
def maxLatest (m : List (Nat × Bank)) (i : Nat) : Nat :=
  (m.map (fun p => nodeLatest (p.2.nodes.getD i Tower.default))).foldl max 0

/-- The number of validators whose merged latest-vote slot equals `slot`. -/
def claimCount (m : List (Nat × Bank)) (slot : Nat) : Nat :=
  (List.range NUM_NODES).countP (fun i => decide (maxLatest m i = slot))

/-- One merge step on an optional accumulated maximum. -/
def opMax : Option Nat → Nat → Option Nat
  | none, v => some v
  | some e, v => some (max e v)

theorem find?_lvMerge (acc : List (Nat × Nat)) (i slot j : Nat) :
    AMap.find? (lvMerge acc i slot) j =
      if i = j then opMax (AMap.find? acc i) slot else AMap.find? acc j := by
  cases hfa : AMap.find? acc i with
  | none =>
    simp only [lvMerge, hfa]
    rw [AMap.find?_insert]
    by_cases hij : i = j
    · rw [if_pos hij, if_pos hij]
      rfl
    · rw [if_neg hij, if_neg hij]
  | some e =>
    simp only [lvMerge, hfa]
    by_cases he : e < slot
    · rw [if_pos he, AMap.find?_insert]
      by_cases hij : i = j
      · rw [if_pos hij, if_pos hij, opMax, Nat.max_eq_right (Nat.le_of_lt he)]
      · rw [if_neg hij, if_neg hij]
    · rw [if_neg he]
      by_cases hij : i = j
      · rw [if_pos hij, ← hij, hfa, opMax, Nat.max_eq_left (Nat.le_of_not_lt he)]
      · rw [if_neg hij]

theorem find?_enumFrom_fold (l : List Tower) :
    ∀ (n : Nat) (acc : List (Nat × Nat)) (j : Nat),
      AMap.find? ((List.enumFrom n l).foldl
          (fun acc p => lvMerge acc p.1 ((p.2.latest_vote.getD p.2.root).slot)) acc) j =
        if n ≤ j ∧ j < n + l.length then
          opMax (AMap.find? acc j) (nodeLatest (l.getD (j - n) Tower.default))
        else AMap.find? acc j := by
  induction l with
  | nil =>
    intro n acc j
    rw [if_neg (by simp only [List.length_nil]; omega)]
    rfl
  | cons t ts ih =>
    intro n acc j
    rw [List.enumFrom_cons, List.foldl_cons, ih]
    by_cases hj0 : j = n
    · subst hj0
      rw [if_neg (by omega), if_pos (by simp only [List.length_cons]; omega)]
      rw [find?_lvMerge, if_pos rfl, Nat.sub_self]
      rfl
    · have hmerge : AMap.find? (lvMerge acc n ((t.latest_vote.getD t.root).slot)) j
          = AMap.find? acc j := by
        rw [find?_lvMerge, if_neg (fun he => hj0 he.symm)]
      by_cases hin : n + 1 ≤ j ∧ j < n + 1 + ts.length
      · rw [if_pos hin, if_pos (by simp only [List.length_cons]; omega), hmerge]
        have hidx : j - n = (j - (n + 1)) + 1 := by omega
        rw [hidx, List.getD_cons_succ]
      · rw [if_neg hin, if_neg (by simp only [List.length_cons]; omega), hmerge]

theorem find?_latest_votes (b : Bank) (acc : List (Nat × Nat)) (j : Nat) :
    AMap.find? (b.latest_votes acc) j =
      if j < b.nodes.length then
        opMax (AMap.find? acc j) (nodeLatest (b.nodes.getD j Tower.default))
      else AMap.find? acc j := by
  rw [Bank.latest_votes, List.enum_eq_enumFrom, find?_enumFrom_fold]
  by_cases hj : j < b.nodes.length
  · rw [if_pos (by constructor <;> omega), if_pos hj, Nat.sub_zero]
  · rw [if_neg (by omega), if_neg hj]

/-- Fold `opMax` over a list of contributions. -/
def opMaxList (o : Option Nat) (l : List Nat) : Option Nat := l.foldl opMax o

theorem find?_banks_fold (banks : List (Nat × Bank)) :
    ∀ (acc : List (Nat × Nat)) (j : Nat),
      (∀ p ∈ banks, p.2.nodes.length = NUM_NODES) → j < NUM_NODES →
      AMap.find? (banks.foldl (fun acc p => p.2.latest_votes acc) acc) j =
        opMaxList (AMap.find? acc j)
          (banks.map (fun p => nodeLatest (p.2.nodes.getD j Tower.default))) := by
  induction banks with
  | nil =>
    intro acc j _ _
    rfl
  | cons p ps ih =>
    intro acc j hlen hj
    rw [List.foldl_cons, List.map_cons,
      ih (p.2.latest_votes acc) j (fun q hq => hlen q (List.mem_cons_of_mem _ hq)) hj]
    rw [find?_latest_votes, if_pos (by rw [hlen p (List.mem_cons_self _ _)]; exact hj)]
    rfl

theorem find?_banks_fold_none (banks : List (Nat × Bank)) :
    ∀ (acc : List (Nat × Nat)) (j : Nat),
      (∀ p ∈ banks, p.2.nodes.length = NUM_NODES) → NUM_NODES ≤ j →
      AMap.find? (banks.foldl (fun acc p => p.2.latest_votes acc) acc) j
        = AMap.find? acc j := by
  induction banks with
  | nil =>
    intro acc j _ _
    rfl
  | cons p ps ih =>
    intro acc j hlen hj
    rw [List.foldl_cons,
      ih (p.2.latest_votes acc) j (fun q hq => hlen q (List.mem_cons_of_mem _ hq)) hj]
    rw [find?_latest_votes,
      if_neg (by rw [hlen p (List.mem_cons_self _ _)]; omega)]

theorem opMaxList_some (l : List Nat) :
    ∀ (x : Nat), opMaxList (some x) l = some (l.foldl max x) := by
  induction l with
  | nil => intro x; rfl
  | cons c cs ih =>
    intro x
    rw [opMaxList, List.foldl_cons, List.foldl_cons]
    exact ih (max x c)

theorem find?_merged_lv (m : List (Nat × Bank)) (j : Nat)
    (hlen : ∀ p ∈ m, p.2.nodes.length = NUM_NODES) (hm : m ≠ []) (hj : j < NUM_NODES) :
    AMap.find? (m.foldl (fun acc p => p.2.latest_votes acc) []) j
      = some (maxLatest m j) := by
  rw [find?_banks_fold m [] j hlen hj]
  cases m with
  | nil => exact absurd rfl hm
  | cons p ps =>
    rw [List.map_cons, maxLatest, List.map_cons, List.foldl_cons, Nat.zero_max]
    rw [AMap.find?_nil, opMaxList, List.foldl_cons]
    exact opMaxList_some _ _

theorem find?_merged_lv_none (m : List (Nat × Bank)) (j : Nat)
    (hlen : ∀ p ∈ m, p.2.nodes.length = NUM_NODES) (hj : NUM_NODES ≤ j) :
    AMap.find? (m.foldl (fun acc p => p.2.latest_votes acc) []) j = none := by
  rw [find?_banks_fold_none m [] j hlen hj]
  rfl

theorem foldl_preserves {α β : Type} (P : α → Prop) (f : α → β → α)
    (hstep : ∀ a x, P a → P (f a x)) :
    ∀ (l : List β) (a : α), P a → P (l.foldl f a) := by
  intro l
  induction l with
  | nil =>
    intro a h
    exact h
  | cons x t ih =>
    intro a h
    exact ih _ (hstep a x h)

theorem keys_nodup_lvMerge (acc : List (Nat × Nat)) (i slot : Nat)
    (h : (AMap.keys acc).Nodup) : (AMap.keys (lvMerge acc i slot)).Nodup := by
  cases hfa : AMap.find? acc i with
  | none =>
    simp only [lvMerge, hfa]
    exact AMap.keys_nodup_insert i slot h
  | some e =>
    simp only [lvMerge, hfa]
    by_cases he : e < slot
    · rw [if_pos he]
      exact AMap.keys_nodup_insert i slot h
    · rw [if_neg he]
      exact h

theorem keys_nodup_merged_lv (m : List (Nat × Bank)) :
    (AMap.keys (m.foldl (fun acc p => p.2.latest_votes acc) [])).Nodup := by
  refine foldl_preserves (fun acc => (AMap.keys acc).Nodup)
    (fun acc p => p.2.latest_votes acc) ?_ m [] (by simp [AMap.keys])
  intro acc p hacc
  exact foldl_preserves (fun a => (AMap.keys a).Nodup)
    (fun a q => lvMerge a q.1 ((q.2.latest_vote.getD q.2.root).slot))
    (fun a q ha => keys_nodup_lvMerge a q.1 ((q.2.latest_vote.getD q.2.root).slot) ha)
    p.2.nodes.enum acc hacc

theorem find?_countValues_aux :
    ∀ (es : List (Nat × Nat)) (sv : List (Nat × Nat)) (v : Nat),
      (AMap.find? (es.foldl
          (fun sv p => AMap.insert sv p.2 ((AMap.find? sv p.2).getD 0 + 1)) sv) v).getD 0
        = (AMap.find? sv v).getD 0 + es.countP (fun p => decide (p.2 = v)) := by
  intro es
  induction es with
  | nil =>
    intro sv v
    rw [List.foldl_nil, List.countP_nil]
    omega
  | cons p ps ih =>
    intro sv v
    rw [List.foldl_cons, ih, List.countP_cons]
    by_cases hv : p.2 = v
    · rw [AMap.find?_insert, if_pos hv]
      simp only [hv, decide_eq_true_eq]
      rw [← hv]
      simp
      omega
    · rw [AMap.find?_insert, if_neg hv]
      simp [hv]

theorem find?_countValues (es : List (Nat × Nat)) (v : Nat) :
    (AMap.find? (countValues es) v).getD 0 = es.countP (fun p => decide (p.2 = v)) := by
  rw [countValues, find?_countValues_aux]
  simp

theorem countP_values (lv : List (Nat × Nat)) (g : Nat → Nat) (t : Nat)
    (hnd : (AMap.keys lv).Nodup)
    (hmem : ∀ k, k ∈ AMap.keys lv ↔ k < NUM_NODES)
    (hval : ∀ k v, AMap.find? lv k = some v → v = g k) :
    lv.countP (fun p => decide (p.2 = t))
      = (List.range NUM_NODES).countP (fun i => decide (g i = t)) := by
  have h1 : lv.countP (fun p => decide (p.2 = t))
      = lv.countP (fun p => decide (g p.1 = t)) := by
    refine List.countP_congr ?_
    intro p hp
    have hfp := AMap.find?_of_mem_of_nodup hnd hp
    rw [hval p.1 p.2 hfp]
  have h2 : lv.countP (fun p => decide (g p.1 = t))
      = (AMap.keys lv).countP (fun k => decide (g k = t)) := by
    rw [AMap.keys, List.countP_map]
    rfl
  have hperm : (AMap.keys lv).Perm (List.range NUM_NODES) := by
    refine (List.perm_ext_iff_of_nodup hnd (List.nodup_range NUM_NODES)).mpr ?_
    intro a
    rw [List.mem_range]
    exact hmem a
  rw [h1, h2, hperm.countP_eq]

theorem sv_counts (m : List (Nat × Bank))
    (hlen : ∀ p ∈ m, p.2.nodes.length = NUM_NODES) (hm : m ≠ []) (t : Nat) :
    (AMap.find? (countValues (m.foldl (fun acc p => p.2.latest_votes acc) [])) t).getD 0
      = claimCount m t := by
  rw [find?_countValues, claimCount]
  refine countP_values _ (fun i => maxLatest m i) t (keys_nodup_merged_lv m) ?_ ?_
  · intro k
    rw [← AMap.find?_isSome_iff_mem_keys]
    constructor
    · intro hs
      by_contra hk
      rw [find?_merged_lv_none m k hlen (by omega)] at hs
      exact Bool.noConfusion hs
    · intro hk
      rw [find?_merged_lv m k hlen hm hk]
      rfl
  · intro k v hkv
    by_cases hk : k < NUM_NODES
    · rw [find?_merged_lv m k hlen hm hk] at hkv
      exact Option.some.inj hkv.symm
    · rw [find?_merged_lv_none m k hlen (by omega)] at hkv
      exact Option.noConfusion hkv

/-! ### Claim C2: the fork-store well-formedness invariant -/

theorem option_any_iff {α : Type} (o : Option α) (f : α → Bool) :
    o.any f = true ↔ ∃ a, o = some a ∧ f a = true := by
  cases o with
  | none => simp [Option.any]
  | some a => simp [Option.any]

/-- Well-formedness of the fork store, established at `Banks::default` and
maintained by every successful `Banks::apply`: duplicate-free keys, key/slot
agreement, children pointing back to their parent, every non-root bank listed
in its parent's duplicate-free children list, a bounded parent chain from
every key to the root, the root never listed as a child, full `nodes`
vectors, and a present root bank. -/
def BanksWF (s : Banks) : Prop :=
  (AMap.keys s.fork_map).Nodup ∧
  (∀ p ∈ s.fork_map, p.2.slot = p.1) ∧
  (∀ p ∈ s.fork_map, ∀ c ∈ p.2.children,
    (AMap.find? s.fork_map c).map Bank.parent = some p.1) ∧
  (∀ p ∈ s.fork_map, p.2.children.Nodup) ∧
  (∀ p ∈ s.fork_map, p.1 ≠ s.lowest_root.slot →
    (AMap.find? s.fork_map p.2.parent).any
      (fun pb => decide (p.1 ∈ pb.children)) = true) ∧
  (∀ p ∈ s.fork_map, ∃ n ∈ List.range (s.fork_map.length + 1),
    parentIter s.fork_map n p.1 = some s.lowest_root.slot) ∧
  (∀ p ∈ s.fork_map, s.lowest_root.slot ∉ p.2.children) ∧
  (∀ p ∈ s.fork_map, p.2.nodes.length = NUM_NODES) ∧
  (AMap.find? s.fork_map s.lowest_root.slot).isSome = true

instance (s : Banks) : Decidable (BanksWF s) := by
  unfold BanksWF
  infer_instance

theorem wf_slot {s : Banks} (h : BanksWF s) {k : Nat} {b : Bank}
    (hf : AMap.find? s.fork_map k = some b) : b.slot = k :=
  h.2.1 (k, b) (AMap.find?_mem hf)

theorem wf_children_back {s : Banks} (h : BanksWF s) :
    ∀ k b, AMap.find? s.fork_map k = some b → ∀ c ∈ b.children,
      ∃ cb, AMap.find? s.fork_map c = some cb ∧ cb.parent = k := by
  intro k b hf c hc
  have := h.2.2.1 (k, b) (AMap.find?_mem hf) c hc
  obtain ⟨cb, hcb, hpar⟩ := Option.map_eq_some'.mp this
  exact ⟨cb, hcb, hpar⟩

theorem wf_children_nodup {s : Banks} (h : BanksWF s) :
    ∀ k b, AMap.find? s.fork_map k = some b → b.children.Nodup := by
  intro k b hf
  exact h.2.2.2.1 (k, b) (AMap.find?_mem hf)

theorem wf_completeness {s : Banks} (h : BanksWF s) :
    ∀ k b, AMap.find? s.fork_map k = some b → k ≠ s.lowest_root.slot →
      ∃ pb, AMap.find? s.fork_map b.parent = some pb ∧ k ∈ pb.children := by
  intro k b hf hk
  have := h.2.2.2.2.1 (k, b) (AMap.find?_mem hf) hk
  obtain ⟨pb, hpb, hmem⟩ := (option_any_iff _ _).mp this
  exact ⟨pb, hpb, of_decide_eq_true hmem⟩

theorem wf_chain {s : Banks} (h : BanksWF s) :
    ∀ k b, AMap.find? s.fork_map k = some b →
      ∃ n, n ≤ s.fork_map.length ∧ parentIter s.fork_map n k = some s.lowest_root.slot := by
  intro k b hf
  obtain ⟨n, hn, hpi⟩ := h.2.2.2.2.2.1 (k, b) (AMap.find?_mem hf)
  rw [List.mem_range] at hn
  exact ⟨n, by omega, hpi⟩

theorem wf_root_not_child {s : Banks} (h : BanksWF s) :
    ∀ k b, AMap.find? s.fork_map k = some b → s.lowest_root.slot ∉ b.children := by
  intro k b hf
  exact h.2.2.2.2.2.2.1 (k, b) (AMap.find?_mem hf)

theorem wf_nodes_len {s : Banks} (h : BanksWF s) :
    ∀ p ∈ s.fork_map, p.2.nodes.length = NUM_NODES :=
  h.2.2.2.2.2.2.2.1

theorem wf_root_mem {s : Banks} (h : BanksWF s) :
    (AMap.find? s.fork_map s.lowest_root.slot).isSome = true :=
  h.2.2.2.2.2.2.2.2

theorem wf_map_ne_nil {s : Banks} (h : BanksWF s) : s.fork_map ≠ [] := by
  intro he
  have := wf_root_mem h
  rw [he] at this
  exact Bool.noConfusion this

/-! ### Claim C2: what a successful weight rebuild guarantees -/

theorem getElem_mem_drop :
    ∀ (L : List Nat) (i j : Nat) (hj : j < L.length), i ≤ j → L[j] ∈ L.drop i := by
  intro L i
  induction i generalizing L with
  | zero =>
    intro j hj _
    rw [List.drop_zero]
    exact L.getElem_mem hj
  | succ i ih =>
    intro j hj hij
    cases L with
    | nil => exact absurd hj (by simp)
    | cons a t =>
      cases j with
      | zero => omega
      | succ j2 =>
        rw [List.drop_succ_cons, List.getElem_cons_succ]
        exact ih t j2 (by simpa using hj) (by omega)

theorem build_fork_weights_spec (s s' : Banks) (hb : s.build_fork_weights = some s')
    (H3 : ∀ k b, AMap.find? s.fork_map k = some b → ∀ c ∈ b.children,
      ∃ cb, AMap.find? s.fork_map c = some cb ∧ cb.parent = k)
    (H5 : ∀ k b, AMap.find? s.fork_map k = some b → b.children.Nodup)
    (H6 : ∀ k b, AMap.find? s.fork_map k = some b → k ≠ s.lowest_root.slot →
      ∃ pb, AMap.find? s.fork_map b.parent = some pb ∧ k ∈ pb.children)
    (H8 : ∀ k b, AMap.find? s.fork_map k = some b →
      ∃ n, parentIter s.fork_map n k = some s.lowest_root.slot)
    (H9 : ∀ k b, AMap.find? s.fork_map k = some b → s.lowest_root.slot ∉ b.children)
    (H10 : ∀ p ∈ s.fork_map, p.2.nodes.length = NUM_NODES)
    (H11 : s.fork_map ≠ []) :
    s'.fork_map = s.fork_map ∧ s'.lowest_root = s.lowest_root ∧
    ∀ k bk, AMap.find? s.fork_map k = some bk → k ≠ s.lowest_root.slot →
      AMap.find? s'.fork_weights k
        = some ((AMap.find? s'.fork_weights bk.parent).getD 0
            + claimCount s.fork_map k) := by
  simp only [Banks.build_fork_weights] at hb
  cases hwalk : walkTree s.fork_map (s.fork_map.length + 1) [s.lowest_root.slot] with
  | none =>
    rw [hwalk] at hb
    exact Option.noConfusion hb
  | some order =>
    simp only [hwalk] at hb
    cases hwf : weightsFold s.fork_map
        (countValues (s.fork_map.foldl (fun acc p => p.2.latest_votes acc) []))
        order [] with
    | none =>
      rw [hwf] at hb
      exact Option.noConfusion hb
    | some w =>
      rw [hwf] at hb
      have hs' : s' = { s with fork_weights := w } := (Option.some.inj hb).symm
      subst hs'
      refine ⟨rfl, rfl, ?_⟩
      intro k bk hfbk hkroot
      have hLnodup : order.Nodup :=
        walkTree_nodup s.fork_map H3 H5 s.lowest_root.slot _ order hwalk
          (fun k _ b hfb => H9 k b hfb)
      obtain ⟨n, hn⟩ := H8 k bk hfbk
      have hkL : k ∈ order :=
        walkTree_cover s.fork_map s.lowest_root.slot H6 _ order hwalk n k hn
          (by rw [hfbk]; rfl)
      obtain ⟨j, hj, hLj⟩ := List.mem_iff_getElem.mp hkL
      rcases walkTree_order s.fork_map H3 _ [s.lowest_root.slot] order hwalk j hj
        with hmem | ⟨i, hi, hij, b', hfb', hLi⟩
      · rw [hLj] at hmem
        exact absurd (List.mem_singleton.mp hmem) hkroot
      · rw [hLj] at hfb'
        have hbb : bk = b' := by
          rw [hfbk] at hfb'
          exact Option.some.inj hfb'
        subst hbb
        have hdecomp : order = order.take i ++ order[i] :: order.drop (i + 1) := by
          rw [← List.drop_eq_getElem_cons hi]
          exact (List.take_append_drop i order).symm
        have hkB : k ∈ order.drop (i + 1) := by
          rw [← hLj]
          exact getElem_mem_drop order (i + 1) j hj (by omega)
        obtain ⟨SP1, SP2⟩ := weightsFold_spec s.fork_map _ order [] w hwf hLnodup
          (fun x _ => AMap.find?_nil x)
        have heq := SP2 k bk (order.take i) (order.drop (i + 1)) hfbk
          (by rw [← hLi]; exact hdecomp) hkB
        rw [heq]
        have hsv := sv_counts s.fork_map H10 H11 k
        rw [hsv]

/-! ### Claim C2: preservation of well-formedness by the insert phase -/

theorem AMap.mem_insert {α : Type} {m : List (Nat × α)} {k : Nat} {v : α} {p : Nat × α}
    (hp : p ∈ AMap.insert m k v) : p = (k, v) ∨ p ∈ m := by
  induction m with
  | nil =>
    rw [AMap.insert] at hp
    exact Or.inl (List.mem_singleton.mp hp)
  | cons q t ih =>
    rcases q with ⟨k', v'⟩
    rw [AMap.insert] at hp
    by_cases hk : k' = k
    · rw [if_pos hk] at hp
      rcases List.mem_cons.mp hp with h | h
      · exact Or.inl h
      · exact Or.inr (List.mem_cons_of_mem _ h)
    · rw [if_neg hk] at hp
      rcases List.mem_cons.mp hp with h | h
      · refine Or.inr ?_
        rw [h]
        exact List.mem_cons_self _ _
      · rcases ih h with h2 | h2
        · exact Or.inl h2
        · exact Or.inr (List.mem_cons_of_mem _ h2)

theorem AMap.length_insert_of_none {α : Type} {m : List (Nat × α)} {k : Nat} (v : α)
    (h : AMap.find? m k = none) : (AMap.insert m k v).length = m.length + 1 := by
  induction m with
  | nil => rfl
  | cons p t ih =>
    rcases p with ⟨k', v'⟩
    rw [AMap.find?_cons] at h
    by_cases hk : (k', v').1 = k
    · rw [if_pos hk] at h
      exact Option.noConfusion h
    · rw [if_neg hk] at h
      rw [AMap.insert, if_neg hk, List.length_cons, List.length_cons, ih h]

theorem parentIter_fix {m : List (Nat × Bank)} {k : Nat} {b : Bank}
    (hf : AMap.find? m k = some b) (hp : b.parent = k) :
    ∀ n, parentIter m n k = some k := by
  intro n
  induction n with
  | zero => rfl
  | succ n ih =>
    simp only [parentIter, hf, hp]
    exact ih

theorem selfparent_eq_root {s : Banks} (hwf : BanksWF s) {k : Nat} {b : Bank}
    (hf : AMap.find? s.fork_map k = some b) (hp : b.parent = k) :
    k = s.lowest_root.slot := by
  obtain ⟨n, _, hpi⟩ := wf_chain hwf k b hf
  rw [parentIter_fix hf hp n] at hpi
  exact Option.some.inj hpi

theorem parentIter_cycle {m : List (Nat × Bank)} {x : Nat} {c : Nat}
    (hc : parentIter m c x = some x) : ∀ q, parentIter m (c * q) x = some x := by
  intro q
  induction q with
  | zero =>
    rw [Nat.mul_zero]
    rfl
  | succ q ih =>
    rw [Nat.mul_succ, parentIter_add, ih]
    exact hc

theorem insert_wf_facts (s : Banks) (hwf : BanksWF s) (pk : Nat)
    (parent bank : Bank)
    (hfresh : AMap.find? s.fork_map bank.slot = none)
    (hfpar : AMap.find? s.fork_map pk = some parent)
    (hbp : bank.parent = pk) (hbc : bank.children = [])
    (hbn : bank.nodes.length = NUM_NODES) :
    ∀ m₃, m₃ = AMap.insert (AMap.insert s.fork_map pk
        { parent with children := parent.children ++ [bank.slot] }) bank.slot bank →
    (∀ j, AMap.find? m₃ j =
        if j = bank.slot then some bank
        else if j = pk then
          some { parent with children := parent.children ++ [bank.slot] }
        else AMap.find? s.fork_map j) ∧
    (AMap.keys m₃).Nodup ∧
    m₃.length = s.fork_map.length + 1 ∧
    (∀ k b, AMap.find? m₃ k = some b → b.slot = k) ∧
    (∀ k b, AMap.find? m₃ k = some b → ∀ c ∈ b.children,
      ∃ cb, AMap.find? m₃ c = some cb ∧ cb.parent = k) ∧
    (∀ k b, AMap.find? m₃ k = some b → b.children.Nodup) ∧
    (∀ k b, AMap.find? m₃ k = some b → k ≠ s.lowest_root.slot →
      ∃ pb, AMap.find? m₃ b.parent = some pb ∧ k ∈ pb.children) ∧
    (∀ k b, AMap.find? m₃ k = some b →
      ∃ n, n ≤ m₃.length ∧ parentIter m₃ n k = some s.lowest_root.slot) ∧
    (∀ k b, AMap.find? m₃ k = some b → s.lowest_root.slot ∉ b.children) ∧
    (∀ k b, AMap.find? m₃ k = some b → b.nodes.length = NUM_NODES) ∧
    (AMap.find? m₃ s.lowest_root.slot).isSome = true := by
  intro m₃ hm₃
  have hpkslot : parent.slot = pk := wf_slot hwf hfpar
  have hnepk : bank.slot ≠ pk := by
    intro he
    rw [he, hfpar] at hfresh
    exact Option.noConfusion hfresh
  have hslot_not_mem : bank.slot ∉ AMap.keys s.fork_map := by
    intro hm
    have := (AMap.find?_isSome_iff_mem_keys s.fork_map bank.slot).mpr hm
    rw [hfresh] at this
    exact Bool.noConfusion this
  have hfind3 : ∀ j, AMap.find? m₃ j =
      if j = bank.slot then some bank
      else if j = pk then
        some { parent with children := parent.children ++ [bank.slot] }
      else AMap.find? s.fork_map j := by
    intro j
    rw [hm₃, AMap.find?_insert, AMap.find?_insert]
    by_cases h1 : j = bank.slot
    · rw [if_pos h1, if_pos h1.symm]
    · rw [if_neg (fun he : bank.slot = j => h1 he.symm), if_neg h1]
      by_cases h2 : j = pk
      · rw [if_pos h2.symm, if_pos h2]
      · rw [if_neg (fun he : pk = j => h2 he.symm), if_neg h2]
  have hρmem : s.lowest_root.slot ∈ AMap.keys s.fork_map :=
    (AMap.find?_isSome_iff_mem_keys _ _).mp (wf_root_mem hwf)
  have hρslot : s.lowest_root.slot ≠ bank.slot := by
    intro he
    rw [← he] at hslot_not_mem
    exact hslot_not_mem hρmem
  have hchsub : ∀ c ∈ parent.children, c ∈ AMap.keys s.fork_map := by
    intro c hc
    obtain ⟨cb, hcb, _⟩ := wf_children_back hwf pk parent hfpar c hc
    refine (AMap.find?_isSome_iff_mem_keys _ _).mp ?_
    rw [hcb]
    rfl
  have hnodup3 : (AMap.keys m₃).Nodup := by
    rw [hm₃]
    refine AMap.keys_nodup_insert _ _ ?_
    exact AMap.keys_nodup_insert _ _ hwf.1
  have hlen3 : m₃.length = s.fork_map.length + 1 := by
    rw [hm₃]
    have h1 : (AMap.insert s.fork_map pk
        { parent with children := parent.children ++ [bank.slot] }).length
        = s.fork_map.length := by
      refine AMap.length_insert_of_isSome _ ?_
      rw [hfpar]
      rfl
    have h2 : AMap.find? (AMap.insert s.fork_map pk
        { parent with children := parent.children ++ [bank.slot] }) bank.slot = none := by
      rw [AMap.find?_insert, if_neg (fun he => hnepk he.symm), hfresh]
    rw [AMap.length_insert_of_none _ h2, h1]
  have hW2 : ∀ k b, AMap.find? m₃ k = some b → b.slot = k := by
    intro k b hf
    rw [hfind3 k] at hf
    by_cases h1 : k = bank.slot
    · rw [if_pos h1] at hf
      rw [← Option.some.inj hf, h1]
    · rw [if_neg h1] at hf
      by_cases h2 : k = pk
      · rw [if_pos h2] at hf
        rw [← Option.some.inj hf]
        rw [show ({ parent with children := parent.children ++ [bank.slot] } : Bank).slot
          = parent.slot from rfl, hpkslot, h2]
      · rw [if_neg h2] at hf
        exact wf_slot hwf hf
  have hW3 : ∀ k b, AMap.find? m₃ k = some b → ∀ c ∈ b.children,
      ∃ cb, AMap.find? m₃ c = some cb ∧ cb.parent = k := by
    intro k b hf c hc
    rw [hfind3 k] at hf
    by_cases h1 : k = bank.slot
    · rw [if_pos h1] at hf
      rw [← Option.some.inj hf, hbc] at hc
      cases hc
    · rw [if_neg h1] at hf
      by_cases h2 : k = pk
      · rw [if_pos h2] at hf
        rw [← Option.some.inj hf] at hc
        rcases List.mem_append.mp hc with hold | hnew
        · obtain ⟨cb, hcb, hcbp⟩ := wf_children_back hwf pk parent hfpar c hold
          have hcslot : c ≠ bank.slot := by
            intro he
            rw [he, hfresh] at hcb
            exact Option.noConfusion hcb
          have hcpk : c ≠ pk := by
            intro he
            rw [he, hfpar] at hcb
            have hcbpar : cb = parent := (Option.some.inj hcb).symm
            have hpkρ : pk = s.lowest_root.slot := by
              refine selfparent_eq_root hwf hfpar ?_
              rw [← hcbpar]
              exact hcbp
            rw [he, hpkρ] at hold
            exact wf_root_not_child hwf pk parent hfpar hold
          refine ⟨cb, ?_, by rw [hcbp, h2]⟩
          rw [hfind3 c, if_neg hcslot, if_neg hcpk]
          exact hcb
        · have hcs : c = bank.slot := List.mem_singleton.mp hnew
          refine ⟨bank, ?_, by rw [hbp, h2]⟩
          rw [hfind3 c, if_pos hcs]
      · rw [if_neg h2] at hf
        obtain ⟨cb, hcb, hcbp⟩ := wf_children_back hwf k b hf c hc
        have hcslot : c ≠ bank.slot := by
          intro he
          rw [he, hfresh] at hcb
          exact Option.noConfusion hcb
        by_cases hcpk : c = pk
        · have hcbpar : cb = parent := by
            rw [hcpk, hfpar] at hcb
            exact (Option.some.inj hcb).symm
          refine ⟨{ parent with children := parent.children ++ [bank.slot] }, ?_, ?_⟩
          · rw [hfind3 c, if_neg hcslot, if_pos hcpk]
          · rw [show ({ parent with children := parent.children ++ [bank.slot] } : Bank).parent
              = parent.parent from rfl, ← hcbpar]
            exact hcbp
        · refine ⟨cb, ?_, hcbp⟩
          rw [hfind3 c, if_neg hcslot, if_neg hcpk]
          exact hcb
  have hW5 : ∀ k b, AMap.find? m₃ k = some b → b.children.Nodup := by
    intro k b hf
    rw [hfind3 k] at hf
    by_cases h1 : k = bank.slot
    · rw [if_pos h1] at hf
      rw [← Option.some.inj hf, hbc]
      exact List.nodup_nil
    · rw [if_neg h1] at hf
      by_cases h2 : k = pk
      · rw [if_pos h2] at hf
        rw [← Option.some.inj hf]
        rw [show ({ parent with children := parent.children ++ [bank.slot] } : Bank).children
          = parent.children ++ [bank.slot] from rfl]
        rw [List.nodup_append]
        refine ⟨wf_children_nodup hwf pk parent hfpar, List.nodup_singleton _, ?_⟩
        intro a ha hb
        rw [List.mem_singleton] at hb
        subst hb
        exact hslot_not_mem (hchsub _ ha)
      · rw [if_neg h2] at hf
        exact wf_children_nodup hwf k b hf
  have hW6 : ∀ k b, AMap.find? m₃ k = some b → k ≠ s.lowest_root.slot →
      ∃ pb, AMap.find? m₃ b.parent = some pb ∧ k ∈ pb.children := by
    intro k b hf hkρ
    rw [hfind3 k] at hf
    by_cases h1 : k = bank.slot
    · rw [if_pos h1] at hf
      rw [← Option.some.inj hf, hbp]
      refine ⟨{ parent with children := parent.children ++ [bank.slot] }, ?_, ?_⟩
      · rw [hfind3 pk, if_neg (fun he => hnepk he.symm), if_pos rfl]
      · rw [h1]
        exact List.mem_append.mpr (Or.inr (List.mem_singleton_self _))
    · rw [if_neg h1] at hf
      by_cases h2 : k = pk
      · rw [if_pos h2] at hf
        obtain ⟨pb, hpb, hmem⟩ := wf_completeness hwf pk parent hfpar (h2 ▸ hkρ)
        have hppk : parent.parent ≠ pk := by
          intro he
          exact (h2 ▸ hkρ) (selfparent_eq_root hwf hfpar he)
        have hpslot : parent.parent ≠ bank.slot := by
          intro he
          rw [he, hfresh] at hpb
          exact Option.noConfusion hpb
        refine ⟨pb, ?_, ?_⟩
        · rw [← Option.some.inj hf]
          rw [show ({ parent with children := parent.children ++ [bank.slot] } : Bank).parent
            = parent.parent from rfl]
          rw [hfind3 parent.parent, if_neg hpslot, if_neg hppk]
          exact hpb
        · rw [h2]
          exact hmem
      · rw [if_neg h2] at hf
        obtain ⟨pb, hpb, hmem⟩ := wf_completeness hwf k b hf hkρ
        have hpslot : b.parent ≠ bank.slot := by
          intro he
          rw [he, hfresh] at hpb
          exact Option.noConfusion hpb
        by_cases hppk : b.parent = pk
        · have hpbpar : pb = parent := by
            rw [hppk, hfpar] at hpb
            exact (Option.some.inj hpb).symm
          refine ⟨{ parent with children := parent.children ++ [bank.slot] }, ?_, ?_⟩
          · rw [hfind3 b.parent, if_neg hpslot, if_pos hppk]
          · rw [show ({ parent with children := parent.children ++ [bank.slot] } : Bank).children
              = parent.children ++ [bank.slot] from rfl]
            refine List.mem_append.mpr (Or.inl ?_)
            rw [← hpbpar]
            exact hmem
        · refine ⟨pb, ?_, hmem⟩
          rw [hfind3 b.parent, if_neg hpslot, if_neg hppk]
          exact hpb
  have hagree : ∀ j b, AMap.find? s.fork_map j = some b →
      ∃ b', AMap.find? m₃ j = some b' ∧ b'.parent = b.parent := by
    intro j b hj
    have hjslot : j ≠ bank.slot := by
      intro he
      rw [he, hfresh] at hj
      exact Option.noConfusion hj
    by_cases hjpk : j = pk
    · have hbpar : b = parent := by
        rw [hjpk, hfpar] at hj
        exact (Option.some.inj hj).symm
      refine ⟨{ parent with children := parent.children ++ [bank.slot] }, ?_, ?_⟩
      · rw [hfind3 j, if_neg hjslot, if_pos hjpk]
      · rw [hbpar]
    · refine ⟨b, ?_, rfl⟩
      rw [hfind3 j, if_neg hjslot, if_neg hjpk]
      exact hj
  have hW8 : ∀ k b, AMap.find? m₃ k = some b →
      ∃ n, n ≤ m₃.length ∧ parentIter m₃ n k = some s.lowest_root.slot := by
    intro k b hf
    rw [hfind3 k] at hf
    by_cases h1 : k = bank.slot
    · obtain ⟨n, hn, hpi⟩ := wf_chain hwf pk parent hfpar
      have hpi3 := parentIter_mono s.fork_map m₃ hagree n pk _ hpi
      refine ⟨n + 1, by omega, ?_⟩
      have hfk3 : AMap.find? m₃ k = some bank := by
        rw [hfind3 k, if_pos h1]
      simp only [parentIter, hfk3, hbp]
      exact hpi3
    · rw [if_neg h1] at hf
      by_cases h2 : k = pk
      · obtain ⟨n, hn, hpi⟩ := wf_chain hwf pk parent hfpar
        refine ⟨n, by omega, ?_⟩
        rw [h2]
        exact parentIter_mono s.fork_map m₃ hagree n pk _ hpi
      · rw [if_neg h2] at hf
        obtain ⟨n, hn, hpi⟩ := wf_chain hwf k b hf
        exact ⟨n, by omega, parentIter_mono s.fork_map m₃ hagree n k _ hpi⟩
  have hW9 : ∀ k b, AMap.find? m₃ k = some b → s.lowest_root.slot ∉ b.children := by
    intro k b hf
    rw [hfind3 k] at hf
    by_cases h1 : k = bank.slot
    · rw [if_pos h1] at hf
      rw [← Option.some.inj hf, hbc]
      exact List.not_mem_nil _
    · rw [if_neg h1] at hf
      by_cases h2 : k = pk
      · rw [if_pos h2] at hf
        rw [← Option.some.inj hf]
        rw [show ({ parent with children := parent.children ++ [bank.slot] } : Bank).children
          = parent.children ++ [bank.slot] from rfl]
        intro hmem
        rcases List.mem_append.mp hmem with hold | hnew
        · exact wf_root_not_child hwf pk parent hfpar hold
        · exact hρslot (List.mem_singleton.mp hnew)
      · rw [if_neg h2] at hf
        exact wf_root_not_child hwf k b hf
  have hW10 : ∀ k b, AMap.find? m₃ k = some b → b.nodes.length = NUM_NODES := by
    intro k b hf
    rw [hfind3 k] at hf
    by_cases h1 : k = bank.slot
    · rw [if_pos h1] at hf
      rw [← Option.some.inj hf]
      exact hbn
    · rw [if_neg h1] at hf
      by_cases h2 : k = pk
      · rw [if_pos h2] at hf
        rw [← Option.some.inj hf]
        exact wf_nodes_len hwf (pk, parent) (AMap.find?_mem hfpar)
      · rw [if_neg h2] at hf
        exact wf_nodes_len hwf (k, b) (AMap.find?_mem hf)
  have hW11 : (AMap.find? m₃ s.lowest_root.slot).isSome = true := by
    rw [hfind3 _, if_neg hρslot]
    by_cases h2 : s.lowest_root.slot = pk
    · rw [if_pos h2]
      rfl
    · rw [if_neg h2]
      exact wf_root_mem hwf
  exact ⟨hfind3, hnodup3, hlen3, hW2, hW3, hW5, hW6, hW8, hW9, hW10, hW11⟩

theorem banksWF_of_find (s : Banks)
    (h1 : (AMap.keys s.fork_map).Nodup)
    (h2 : ∀ k b, AMap.find? s.fork_map k = some b → b.slot = k)
    (h3 : ∀ k b, AMap.find? s.fork_map k = some b → ∀ c ∈ b.children,
      ∃ cb, AMap.find? s.fork_map c = some cb ∧ cb.parent = k)
    (h5 : ∀ k b, AMap.find? s.fork_map k = some b → b.children.Nodup)
    (h6 : ∀ k b, AMap.find? s.fork_map k = some b → k ≠ s.lowest_root.slot →
      ∃ pb, AMap.find? s.fork_map b.parent = some pb ∧ k ∈ pb.children)
    (h8 : ∀ k b, AMap.find? s.fork_map k = some b →
      ∃ n, n ≤ s.fork_map.length ∧ parentIter s.fork_map n k = some s.lowest_root.slot)
    (h9 : ∀ k b, AMap.find? s.fork_map k = some b → s.lowest_root.slot ∉ b.children)
    (h10 : ∀ k b, AMap.find? s.fork_map k = some b → b.nodes.length = NUM_NODES)
    (h11 : (AMap.find? s.fork_map s.lowest_root.slot).isSome = true) :
    BanksWF s := by
  have hmemf : ∀ p ∈ s.fork_map, AMap.find? s.fork_map p.1 = some p.2 :=
    fun p hp => AMap.find?_of_mem_of_nodup h1 hp
  refine ⟨h1, ?_, ?_, ?_, ?_, ?_, ?_, ?_, ?_⟩
  · exact fun p hp => h2 p.1 p.2 (hmemf p hp)
  · intro p hp c hc
    obtain ⟨cb, hcb, hcbp⟩ := h3 p.1 p.2 (hmemf p hp) c hc
    rw [hcb]
    simp [hcbp]
  · exact fun p hp => h5 p.1 p.2 (hmemf p hp)
  · intro p hp hne
    obtain ⟨pb, hpb, hmem⟩ := h6 p.1 p.2 (hmemf p hp) hne
    rw [hpb]
    simp [Option.any, hmem]
  · intro p hp
    obtain ⟨n, hn, hpi⟩ := h8 p.1 p.2 (hmemf p hp)
    exact ⟨n, List.mem_range.mpr (by omega), hpi⟩
  · exact fun p hp => h9 p.1 p.2 (hmemf p hp)
  · exact fun p hp => h10 p.1 p.2 (hmemf p hp)
  · exact h11

/-! ### Claim C2: field preservation through the bank transition -/

theorem applyOneVote_ok_len {nodes nodes' : List Tower} {fork : List Nat}
    {id : Nat} {v : Vote}
    (h : Bank.applyOneVote nodes fork id v = .ok nodes') :
    nodes'.length = nodes.length := by
  rw [Bank.applyOneVote] at h
  by_cases hv : v.slot ∈ fork
  · rw [if_pos hv] at h
    cases hidx : nodes[id]? with
    | none =>
      rw [hidx] at h
      exact Except.noConfusion h
    | some t =>
      simp only [hidx] at h
      injection h with h1
      rw [← h1, List.length_set]
  · rw [if_neg hv] at h
    exact Except.noConfusion h

theorem foldl_applyOne_ok_len (fork : List Nat) (id : Nat) :
    ∀ (vs : List Vote) (nodes nodes' : List Tower),
      vs.foldlM (fun acc v => Bank.applyOneVote acc fork id v) nodes = .ok nodes' →
      nodes'.length = nodes.length := by
  intro vs
  induction vs with
  | nil =>
    intro nodes nodes' h
    rw [List.foldlM_nil] at h
    cases h
    rfl
  | cons v rest ih =>
    intro nodes nodes' h
    rw [List.foldlM_cons] at h
    cases hone : Bank.applyOneVote nodes fork id v with
    | error e =>
      rw [hone] at h
      exact Except.noConfusion h
    | ok nodes₁ =>
      rw [hone] at h
      rw [ih nodes₁ nodes' h, applyOneVote_ok_len hone]

theorem applyVotes_ok_len (fork : List Nat) :
    ∀ (votes : List (Nat × List Vote)) (nodes nodes' : List Tower),
      Bank.applyVotes nodes fork votes = .ok nodes' → nodes'.length = nodes.length := by
  intro votes
  induction votes with
  | nil =>
    intro nodes nodes' h
    cases h
    rfl
  | cons p rest ih =>
    intro nodes nodes' h
    rcases p with ⟨id, vs⟩
    rw [Bank.applyVotes] at h
    cases hone : vs.foldlM (fun acc v => Bank.applyOneVote acc fork id v) nodes with
    | error e =>
      rw [hone] at h
      exact Except.noConfusion h
    | ok nodes₁ =>
      rw [hone] at h
      rw [ih nodes₁ nodes' h, foldl_applyOne_ok_len fork id vs nodes nodes₁ hone]

theorem bankApply_ok_fields {b : Bank} {block : Block} {fork : List Nat} {b' : Bank}
    (h : b.apply block fork = .ok b') :
    b'.slot = b.slot ∧ b'.parent = b.parent ∧ b'.children = b.children ∧
    b'.nodes.length = b.nodes.length := by
  rw [Bank.apply] at h
  by_cases hf : b.frozen = true
  · rw [if_pos hf] at h
    exact Except.noConfusion h
  · rw [if_neg hf] at h
    by_cases hs : b.slot ≠ block.slot
    · rw [if_pos hs] at h
      exact Except.noConfusion h
    · rw [if_neg hs] at h
      by_cases hp : b.parent ≠ block.parent
      · rw [if_pos hp] at h
        exact Except.noConfusion h
      · rw [if_neg hp] at h
        cases hav : Bank.applyVotes b.nodes fork block.votes with
        | error e =>
          rw [hav] at h
          exact Except.noConfusion h
        | ok nodes' =>
          simp only [hav] at h
          cases hsr : ({ b with nodes := nodes' } : Bank).calc_super_root with
          | none =>
            simp only [hsr] at h
            exact Except.noConfusion h
          | some sr =>
            simp only [hsr] at h
            injection h with h1
            rw [← h1]
            refine ⟨rfl, rfl, rfl, ?_⟩
            exact applyVotes_ok_len fork block.votes b.nodes nodes' hav

theorem bank_child_elim {b : Bank} {slot : Nat} {p c : Bank}
    (h : b.child slot = some (p, c)) :
    b.frozen = true ∧ p = { b with children := b.children ++ [slot] } ∧
    c.slot = slot ∧ c.parent = b.slot ∧ c.children = [] ∧ c.nodes = b.nodes := by
  rw [Bank.child] at h
  by_cases hf : b.frozen = true
  · rw [if_pos hf] at h
    dsimp only at h
    have h2 := Option.some.inj h
    have hp := congrArg Prod.fst h2
    have hc := congrArg Prod.snd h2
    dsimp only at hp hc
    refine ⟨hf, hp.symm, ?_, ?_, ?_, ?_⟩
    · rw [← hc]
    · rw [← hc]
    · rw [← hc]
    · rw [← hc]
  · rw [if_neg hf] at h
    exact Option.noConfusion h

/-! ### Claim C2: well-formedness of the garbage-collected subtree -/

theorem gc_wf_facts (m₃ : List (Nat × Bank)) (ρ lr : Nat) (hρlr : ρ < lr)
    (H2 : ∀ k b, AMap.find? m₃ k = some b → b.slot = k)
    (H3 : ∀ k b, AMap.find? m₃ k = some b → ∀ c ∈ b.children,
      ∃ cb, AMap.find? m₃ c = some cb ∧ cb.parent = k)
    (H5 : ∀ k b, AMap.find? m₃ k = some b → b.children.Nodup)
    (H6 : ∀ k b, AMap.find? m₃ k = some b → k ≠ ρ →
      ∃ pb, AMap.find? m₃ b.parent = some pb ∧ k ∈ pb.children)
    (H8 : ∀ k b, AMap.find? m₃ k = some b → ∃ n, parentIter m₃ n k = some ρ)
    (H9 : ∀ k b, AMap.find? m₃ k = some b → ρ ∉ b.children)
    (H10 : ∀ k b, AMap.find? m₃ k = some b → b.nodes.length = NUM_NODES)
    (fuel : Nat) (L : List Nat) (hwalk : walkTree m₃ fuel [lr] = some L)
    (m₄ : List (Nat × Bank)) (hgc : gcRebuild L m₃ [] = some m₄) :
    (AMap.keys m₄).Nodup ∧ m₄.length = L.length ∧
    (∀ k, AMap.find? m₄ k = if k ∈ L then AMap.find? m₃ k else none) ∧
    (∀ k b, AMap.find? m₄ k = some b → b.slot = k) ∧
    (∀ k b, AMap.find? m₄ k = some b → ∀ c ∈ b.children,
      ∃ cb, AMap.find? m₄ c = some cb ∧ cb.parent = k) ∧
    (∀ k b, AMap.find? m₄ k = some b → b.children.Nodup) ∧
    (∀ k b, AMap.find? m₄ k = some b → k ≠ lr →
      ∃ pb, AMap.find? m₄ b.parent = some pb ∧ k ∈ pb.children) ∧
    (∀ k b, AMap.find? m₄ k = some b →
      ∃ n, n ≤ m₄.length ∧ parentIter m₄ n k = some lr) ∧
    (∀ k b, AMap.find? m₄ k = some b → lr ∉ b.children) ∧
    (∀ k b, AMap.find? m₄ k = some b → b.nodes.length = NUM_NODES) ∧
    (AMap.find? m₄ lr).isSome = true := by
  have hρne : ρ ≠ lr := by omega
  have hρL : ρ ∉ L := by
    intro hρin
    rcases walkTree_origin m₃ fuel [lr] L hwalk ρ hρin with hmem | ⟨k, b, hkL, hfb, hch⟩
    · exact hρne (List.mem_singleton.mp hmem)
    · exact H9 k b hfb hch
  have hL9 : ∀ k ∈ L, ∀ b, AMap.find? m₃ k = some b → lr ∉ b.children := by
    intro k hk b hfb hmem
    obtain ⟨cb, hcb, hcbp⟩ := H3 k b hfb lr hmem
    obtain ⟨j, hj, hLj⟩ := List.mem_iff_getElem.mp hk
    obtain ⟨n, hn, hpi, hint⟩ := walkTree_chain m₃ H3 lr fuel L hwalk j hj
    rw [hLj] at hpi hint
    have hcyc : parentIter m₃ (n + 1) lr = some lr := by
      simp only [parentIter, hcb, hcbp]
      exact hpi
    obtain ⟨nρ, hρchain⟩ := H8 lr cb hcb
    have hper : parentIter m₃ ((n + 1) * (nρ / (n + 1))) lr = some lr :=
      parentIter_cycle hcyc (nρ / (n + 1))
    have hsplit : nρ = (n + 1) * (nρ / (n + 1)) + nρ % (n + 1) :=
      (Nat.div_add_mod nρ (n + 1)).symm
    have hd : parentIter m₃ (nρ % (n + 1)) lr = some ρ := by
      rw [hsplit, parentIter_add, hper] at hρchain
      exact hρchain
    have hdlt : nρ % (n + 1) < n + 1 := Nat.mod_lt _ (by omega)
    cases hne : nρ % (n + 1) with
    | zero =>
      rw [hne] at hd
      exact absurd (Option.some.inj hd).symm hρne
    | succ d =>
      rw [hne] at hd
      simp only [parentIter, hcb, hcbp] at hd
      rw [hne] at hdlt
      obtain ⟨i, hi, hii⟩ := hint d (by omega)
      rw [hii] at hd
      have : ρ = L[i] := (Option.some.inj hd).symm
      rw [this] at hρL
      exact hρL (L.getElem_mem hi)
  have hLkeys : ∀ v ∈ L, (AMap.find? m₃ v).isSome = true :=
    walkTree_keys m₃ fuel [lr] L hwalk
  have hnodupL : L.Nodup := walkTree_nodup m₃ H3 H5 lr fuel L hwalk hL9
  obtain ⟨m₄', hgc', hkeys', hfind'⟩ :=
    gcRebuild_spec L m₃ [] hnodupL hLkeys (fun v _ => rfl)
  have hm₄ : m₄' = m₄ := by
    rw [hgc] at hgc'
    exact (Option.some.inj hgc').symm
  subst hm₄
  have hfind4 : ∀ k, AMap.find? m₄' k = if k ∈ L then AMap.find? m₃ k else none := by
    intro k
    rw [hfind' k]
    by_cases hk : k ∈ L
    · rw [if_pos hk, if_pos hk]
    · rw [if_neg hk, if_neg hk]
      rfl
  have hkeys4 : AMap.keys m₄' = L := by
    rw [hkeys']
    rfl
  have hnodup4 : (AMap.keys m₄').Nodup := by
    rw [hkeys4]
    exact hnodupL
  have hlen4 : m₄'.length = L.length := by
    have : (AMap.keys m₄').length = m₄'.length := List.length_map _ _
    rw [← this, hkeys4]
  have hsrc : ∀ k b, AMap.find? m₄' k = some b → k ∈ L ∧ AMap.find? m₃ k = some b := by
    intro k b hf
    rw [hfind4 k] at hf
    by_cases hk : k ∈ L
    · rw [if_pos hk] at hf
      exact ⟨hk, hf⟩
    · rw [if_neg hk] at hf
      exact Option.noConfusion hf
  refine ⟨hnodup4, hlen4, hfind4, ?_, ?_, ?_, ?_, ?_, ?_, ?_, ?_⟩
  · intro k b hf
    exact H2 k b (hsrc k b hf).2
  · intro k b hf c hc
    obtain ⟨hkL, hf3⟩ := hsrc k b hf
    obtain ⟨cb, hcb, hcbp⟩ := H3 k b hf3 c hc
    have hcL : c ∈ L := walkTree_closure m₃ fuel [lr] L hwalk k hkL b hf3 c hc
    refine ⟨cb, ?_, hcbp⟩
    rw [hfind4 c, if_pos hcL]
    exact hcb
  · intro k b hf
    exact H5 k b (hsrc k b hf).2
  · intro k b hf hklr
    obtain ⟨hkL, hf3⟩ := hsrc k b hf
    have hkρ : k ≠ ρ := by
      intro he
      rw [he] at hkL
      exact hρL hkL
    obtain ⟨pb, hpb, hkch⟩ := H6 k b hf3 hkρ
    obtain ⟨j, hj, hLj⟩ := List.mem_iff_getElem.mp hkL
    rcases walkTree_order m₃ H3 fuel [lr] L hwalk j hj
      with hmem | ⟨i, hi, hij, b', hfb', hLi⟩
    · rw [hLj] at hmem
      exact absurd (List.mem_singleton.mp hmem) hklr
    · rw [hLj] at hfb'
      have hbb : b = b' := by
        rw [hf3] at hfb'
        exact Option.some.inj hfb'
      subst hbb
      have hpL : b.parent ∈ L := by
        rw [← hLi]
        exact L.getElem_mem hi
      refine ⟨pb, ?_, hkch⟩
      rw [hfind4 b.parent, if_pos hpL]
      exact hpb
  · intro k b hf
    obtain ⟨hkL, hf3⟩ := hsrc k b hf
    obtain ⟨j, hj, hLj⟩ := List.mem_iff_getElem.mp hkL
    obtain ⟨n, hn, hpi, hint⟩ := walkTree_chain m₃ H3 lr fuel L hwalk j hj
    rw [hLj] at hpi hint
    refine ⟨n, by omega, ?_⟩
    refine parentIter_congr_on m₃ m₄' n k lr ?_ hpi
    intro t ht
    obtain ⟨i, hi, hii⟩ := hint t (by omega)
    refine ⟨L[i], hii, ?_⟩
    rw [hfind4 (L[i]), if_pos (L.getElem_mem hi)]
  · intro k b hf
    obtain ⟨hkL, hf3⟩ := hsrc k b hf
    exact hL9 k hkL b hf3
  · intro k b hf
    exact H10 k b (hsrc k b hf).2
  · have hlrL : lr ∈ L :=
      walkTree_stack_subset m₃ fuel [lr] L hwalk lr (List.mem_singleton_self lr)
    rw [hfind4 lr, if_pos hlrL]
    exact hLkeys lr hlrL

/-! ### Claim C2: the tail of `Banks::apply` preserves well-formedness -/

theorem applyTail_wf (s : Banks) (m₁ : List (Nat × Bank)) (bank parent : Bank)
    (s' : Banks) (hwf : BanksWF s)
    (h : Banks.applyTail s m₁ bank = .ok s')
    (hfreshn : AMap.find? s.fork_map bank.slot = none)
    (hfpar : AMap.find? s.fork_map bank.parent = some parent)
    (hm₁ : m₁ = AMap.insert s.fork_map bank.parent
      { parent with children := parent.children ++ [bank.slot] })
    (hbc : bank.children = [])
    (hbn : bank.nodes.length = NUM_NODES) :
    BanksWF s' ∧
    ∀ k bk, AMap.find? s'.fork_map k = some bk → k ≠ s'.lowest_root.slot →
      AMap.find? s'.fork_weights k
        = some ((AMap.find? s'.fork_weights bk.parent).getD 0
            + claimCount s'.fork_map k) := by
  obtain ⟨hfind3, hnodup3, hlen3, hW2, hW3, hW5, hW6, hW8, hW9, hW10, hW11⟩ :=
    insert_wf_facts s hwf bank.parent parent bank hfreshn hfpar rfl hbc hbn
      (AMap.insert m₁ bank.slot bank) (by rw [hm₁])
  rw [Banks.applyTail] at h
  cases hlrr : bank.lowest_root with
  | none =>
    rw [hlrr] at h
    exact Except.noConfusion h
  | some lr =>
    simp only [hlrr] at h
    by_cases hdup : (AMap.find? m₁ bank.slot).isSome = true
    · rw [if_pos hdup] at h
      exact Except.noConfusion h
    · rw [if_neg hdup] at h
      by_cases hadv : s.lowest_root.slot < lr.slot
      · rw [if_pos hadv] at h
        cases hgc : Banks.gc { s with fork_map := AMap.insert m₁ bank.slot bank, lowest_root := lr } with
        | none =>
          rw [hgc] at h
          exact Except.noConfusion h
        | some s₂ =>
          simp only [hgc] at h
          cases hbw : s₂.build_fork_weights with
          | none =>
            rw [hbw] at h
            exact Except.noConfusion h
          | some s₃ =>
            simp only [hbw] at h
            have hs' : s₃ = s' := Except.ok.inj h
            subst hs'
            rw [Banks.gc] at hgc
            dsimp only at hgc
            cases hgw : walkTree (AMap.insert m₁ bank.slot bank)
                ((AMap.insert m₁ bank.slot bank).length + 1) [lr.slot] with
            | none =>
              rw [hgw] at hgc
              exact Option.noConfusion hgc
            | some valid =>
              simp only [hgw] at hgc
              cases hgr : gcRebuild valid (AMap.insert m₁ bank.slot bank) [] with
              | none =>
                rw [hgr] at hgc
                exact Option.noConfusion hgc
              | some m₄ =>
                simp only [hgr] at hgc
                have hs₂ : { s with fork_map := m₄, lowest_root := lr } = s₂ := by
                  have := Option.some.inj hgc
                  rw [← this]
                subst hs₂
                obtain ⟨hnodup4, hlen4, hfind4, g2, g3, g5, g6, g8, g9, g10, g11⟩ :=
                  gc_wf_facts (AMap.insert m₁ bank.slot bank) s.lowest_root.slot
                    lr.slot hadv hW2 hW3 hW5 hW6
                    (fun k b hf => (hW8 k b hf).elim (fun n hn => ⟨n, hn.2⟩))
                    hW9 hW10 _ valid hgw m₄ hgr
                have hm4ne : m₄ ≠ [] := by
                  intro he
                  rw [he] at g11
                  exact Bool.noConfusion g11
                obtain ⟨hfm, hlroot, hweights⟩ :=
                  build_fork_weights_spec _ s₃ hbw g3 g5 g6
                    (fun k b hf => (g8 k b hf).elim (fun n hn => ⟨n, hn.2⟩))
                    g9 (fun p hp => g10 p.1 p.2 (AMap.find?_of_mem_of_nodup hnodup4 hp))
                    hm4ne
                rw [show ({ s with fork_map := m₄, lowest_root := lr } : Banks).fork_map
                  = m₄ from rfl] at hfm
                rw [show ({ s with fork_map := m₄, lowest_root := lr } : Banks).lowest_root
                  = lr from rfl] at hlroot
                constructor
                · refine banksWF_of_find s₃ ?_ ?_ ?_ ?_ ?_ ?_ ?_ ?_ ?_
                  · rw [hfm]
                    exact hnodup4
                  · rw [hfm]
                    exact g2
                  · rw [hfm]
                    exact g3
                  · rw [hfm]
                    exact g5
                  · rw [hfm, hlroot]
                    exact g6
                  · rw [hfm, hlroot]
                    exact g8
                  · rw [hfm, hlroot]
                    exact g9
                  · rw [hfm]
                    exact g10
                  · rw [hfm, hlroot]
                    exact g11
                · intro k bk hfk hkroot
                  rw [hfm] at hfk
                  rw [hlroot] at hkroot
                  rw [hfm]
                  exact hweights k bk hfk hkroot
      · rw [if_neg hadv] at h
        cases hbw : Banks.build_fork_weights
            { s with fork_map := AMap.insert m₁ bank.slot bank } with
        | none =>
          rw [hbw] at h
          exact Except.noConfusion h
        | some s₃ =>
          simp only [hbw] at h
          have hs' : s₃ = s' := Except.ok.inj h
          subst hs'
          have hm3ne : AMap.insert m₁ bank.slot bank ≠ [] := by
            intro he
            rw [he] at hW11
            exact Bool.noConfusion hW11
          obtain ⟨hfm, hlroot, hweights⟩ :=
            build_fork_weights_spec _ s₃ hbw hW3 hW5 hW6
              (fun k b hf => (hW8 k b hf).elim (fun n hn => ⟨n, hn.2⟩))
              hW9 (fun p hp => hW10 p.1 p.2 (AMap.find?_of_mem_of_nodup hnodup3 hp))
              hm3ne
          rw [show ({ s with fork_map := AMap.insert m₁ bank.slot bank } : Banks).fork_map
            = AMap.insert m₁ bank.slot bank from rfl] at hfm
          rw [show ({ s with fork_map := AMap.insert m₁ bank.slot bank } : Banks).lowest_root
            = s.lowest_root from rfl] at hlroot
          constructor
          · refine banksWF_of_find s₃ ?_ ?_ ?_ ?_ ?_ ?_ ?_ ?_ ?_
            · rw [hfm]
              exact hnodup3
            · rw [hfm]
              exact hW2
            · rw [hfm]
              exact hW3
            · rw [hfm]
              exact hW5
            · rw [hfm, hlroot]
              exact hW6
            · rw [hfm, hlroot]
              exact hW8
            · rw [hfm, hlroot]
              exact hW9
            · rw [hfm]
              exact hW10
            · rw [hfm, hlroot]
              exact hW11
          · intro k bk hfk hkroot
            rw [hfm] at hfk
            rw [hlroot] at hkroot
            rw [hfm]
            exact hweights k bk hfk hkroot

/-! ### Claim C2 -/

/-- Claim C2: after every successful `Banks::apply` on a well-formed fork
store the store stays well formed, and for every bank in `fork_map` whose
slot is not `lowest_root.slot`, `fork_weights[bank.slot]` equals
`fork_weights[bank.parent]` plus the number of validators whose latest-vote
slot — the per-validator maximum over all banks of `latest_vote()`, or the
tower root when the vote stack is empty — equals `bank.slot`, a missing
parent weight counting as 0. -/
theorem c2_weight_consistency (s : Banks) (block : Block) (s' : Banks)
    (hwf : BanksWF s) (h : s.apply block = .ok s') :
    BanksWF s' ∧
    ∀ k bk, AMap.find? s'.fork_map k = some bk → k ≠ s'.lowest_root.slot →
      AMap.find? s'.fork_weights k
        = some ((AMap.find? s'.fork_weights bk.parent).getD 0
            + claimCount s'.fork_map k) := by
  rw [Banks.apply] at h
  by_cases hfresh : (AMap.find? s.fork_map block.slot).isSome = true
  · rw [if_pos hfresh] at h
    exact Except.noConfusion h
  · rw [if_neg hfresh] at h
    have hfreshn : AMap.find? s.fork_map block.slot = none := by
      cases hf : AMap.find? s.fork_map block.slot with
      | none => rfl
      | some b =>
        rw [hf] at hfresh
        exact absurd rfl hfresh
    cases hfpar : AMap.find? s.fork_map block.parent with
    | none =>
      rw [hfpar] at h
      exact Except.noConfusion h
    | some parent =>
      simp only [hfpar] at h
      cases hchild : parent.child block.slot with
      | none =>
        rw [hchild] at h
        exact Except.noConfusion h
      | some pc =>
        obtain ⟨parent', bank₀⟩ := pc
        simp only [hchild] at h
        obtain ⟨hfroz, hpar', hc_slot, hc_parent, hc_children, hc_nodes⟩ :=
          bank_child_elim hchild
        cases hcf : computeForkAux (AMap.insert s.fork_map block.parent parent')
            ((AMap.insert s.fork_map block.parent parent').length + 1)
            block.parent [block.parent] with
        | none =>
          rw [hcf] at h
          exact Except.noConfusion h
        | some forkChain =>
          simp only [hcf] at h
          cases hba : bank₀.apply block (block.slot :: forkChain) with
          | error e =>
            rw [hba] at h
            exact Except.noConfusion h
          | ok bank =>
            simp only [hba] at h
            obtain ⟨hb_slot, hb_parent, hb_children, hb_len⟩ := bankApply_ok_fields hba
            have hps : parent.slot = block.parent := wf_slot hwf hfpar
            have hbslot : bank.slot = block.slot := by
              rw [hb_slot, hc_slot]
            have hbparent : bank.parent = block.parent := by
              rw [hb_parent, hc_parent, hps]
            refine applyTail_wf s (AMap.insert s.fork_map block.parent parent')
              bank parent s' hwf h ?_ ?_ ?_ ?_ ?_
            · rw [hbslot]
              exact hfreshn
            · rw [hbparent]
              exact hfpar
            · rw [hbparent, hpar', hbslot]
            · rw [hb_children, hc_children]
            · rw [hb_len, hc_nodes]
              exact wf_nodes_len hwf (block.parent, parent) (AMap.find?_mem hfpar)

/-- A bank over full default towers with the empty subcommittee, giving a
small well-formed initial fork store for concrete evaluation. -/
def c2bank : Bank :=
  { nodes := List.replicate NUM_NODES Tower.default
    slot := 0
    parent := 0
    frozen := true
    children := []
    subcom := emptySubcom }

def c2banks : Banks :=
  { fork_map := [(0, c2bank)]
    fork_weights := []
    lowest_root := Vote.zero }

def c2block : Block := ⟨1, 0, []⟩

def c2post : Banks :=
  match Banks.apply c2banks c2block with
  | .ok s => s
  | .error _ => Banks.default

set_option maxRecDepth 1000000 in
theorem c2_weight_consistency_witness :
    BanksWF c2banks ∧ (Banks.apply c2banks c2block = .ok c2post) ∧
    (BanksWF c2post ∧
      ∀ k bk, AMap.find? c2post.fork_map k = some bk →
        k ≠ c2post.lowest_root.slot →
        AMap.find? c2post.fork_weights k
          = some ((AMap.find? c2post.fork_weights bk.parent).getD 0
              + claimCount c2post.fork_map k)) :=
  ⟨by decide, by rfl,
    c2_weight_consistency c2banks c2block c2post (by decide) (by rfl)⟩

end TowerSim
